import Mathlib

/-!
# readr: the line tokenizer and the CSV encoder

A shallow embedding of `src/TokenizerLine.h` (class `TokenizerLine`) and of the
encoders of `src/write_csv.cpp` (string, cell, row, table and the exported
`stream_csv`), with the properties proved about them.

Conventions of the embedding.

* A `SourceIterator` (`const char*`) is an address, a natural number; the memory
  the iterators point into is a function from addresses to characters.
* The member variables of `TokenizerLine` are the fields of a structure, and every
  member function takes the object and returns the updated object.
* `Rcpp::checkUserInterrupt()` is an injected callable `check`: `check i` tells
  whether the poll number `i` (counting from 0) finds a pending interrupt, in which
  case the call throws.  The number of polls made so far is threaded through.
* The `while` loop of `nextToken` runs on fuel `end_ - cur_`; it runs out only when
  the cursor lies beyond `end_`, where the C++ loop reads outside the buffer.
* An output stream is the list of the characters written to it; a function that
  writes to a `Stream&` takes the content of the stream and ends with a `Result`:
  the new content, together with the exception of `Rcpp::stop` if it was raised.
* The files are a state that gives the content at each path and tells whether the
  path can be opened for writing, and the formatting of an `int` and of a finite
  `double` by `operator<<` is a parameter of the encoders.
-/

namespace Readr

/-! ## Data model -/

/-- A `SourceIterator` is an address into the source memory. -/
abbrev SourceIterator := Nat

/-- The memory that source iterators point into. -/
abbrev Source := SourceIterator → Char

/-- Modelled from the spec: the `Token` class (`Token.h` is not among the sources).
A token is of kind FIELD or EOF and carries a line number and an extra number; a
FIELD token also carries its half-open byte range `[b, e)`, which excludes the line
terminator.  `eof line extra` is `Token(TOKEN_EOF, line, extra)`, built without any
range, and `field b e line extra` is `Token(b, e, line, extra)`. -/
inductive Token where
  | eof (line : Int) (extra : Int)
  | field (b e : SourceIterator) (line : Int) (extra : Int)
  deriving DecidableEq

/-- Whether the token is of kind EOF. -/
def Token.isEOF : Token → Bool
  | .eof _ _ => true
  | .field _ _ _ _ => false

/-- The line number carried by a token. -/
def Token.line : Token → Int
  | .eof l _ => l
  | .field _ _ l _ => l

/-- The number of bytes in the range of a token; an EOF token has a zero-length
range. -/
def Token.size : Token → Nat
  | .eof _ _ => 0
  | .field b e _ _ => e - b

/-- The bytes of memory in the half-open range `[b, e)`. -/
def bytes (src : Source) (b e : SourceIterator) : List Char :=
  (List.range' b (e - b)).map src

/-- The bytes a token denotes: those of its range, none for an EOF token. -/
def Token.content (src : Source) : Token → List Char
  | .eof _ _ => []
  | .field b e _ _ => bytes src b e

/-- The member variables of `class TokenizerLine`. -/
structure TokenizerLine where
  begin_ : SourceIterator
  cur_ : SourceIterator
  end_ : SourceIterator
  moreTokens_ : Bool
  line_ : Int
  deriving DecidableEq

/-! ## Operations of `TokenizerLine` -/

/-- `TokenizerLine::tokenize(begin, end)`: assigns `cur_`, `end_`, `line_` and
`moreTokens_`; `begin_` is not assigned. -/
def TokenizerLine.tokenize (t : TokenizerLine) (b e : SourceIterator) : TokenizerLine :=
  { t with cur_ := b, end_ := e, line_ := 0, moreTokens_ := true }

/-- Conversion of a pointer difference to `size_t` (64 bits). -/
def toSizeT (i : Int) : Nat := (i % 2 ^ 64).toNat

/-- The result of `progress()`: the byte count `bytes` (second component of the
pair) and the divisor `end_ - begin_`; the first component of the pair is the
floating-point quotient `bytes / (double) total`, which is not evaluated here. -/
structure Progress where
  bytes : Nat
  total : Int
  deriving DecidableEq

/-- `TokenizerLine::progress()`. -/
def TokenizerLine.progress (t : TokenizerLine) : Progress :=
  let bytes := toSizeT ((t.cur_ : Int) - (t.begin_ : Int))
  { bytes := bytes, total := (t.end_ : Int) - (t.begin_ : Int) }

/-- Modelled from the spec: `advanceForLF(&cur, end)` (`utils.h` is not among the
sources).  It returns the position of the terminator the cursor stands on, and
steps the cursor over the `\r` of a `\r\n` pair lying inside the buffer.  The
result is the pair (new cursor, returned position). -/
def advanceForLF (src : Source) (cur end_ : SourceIterator) :
    SourceIterator × SourceIterator :=
  if src cur = '\r' ∧ cur + 1 ≠ end_ ∧ src (cur + 1) = '\n' then (cur + 1, cur)
  else (cur, cur)

/-- How the `while` loop of `nextToken` is left. -/
inductive LoopExit where
  /-- The loop condition `cur_ != end_` failed. -/
  | done (polls : Nat)
  /-- The `return` in the `switch`: the token ends at `tokEnd`, the cursor is left
  at `cur`. -/
  | ret (tokEnd cur : SourceIterator) (polls : Nat)
  /-- The call `Rcpp::checkUserInterrupt()` threw; the cursor is left at `cur`. -/
  | thrown (cur : SourceIterator) (polls : Nat)
  deriving DecidableEq

/-- Modelled from the spec: the destructor of `Advance` (`Tokenizer.h` is not among
the sources).  `Advance advance(&cur_)` increments the cursor when its scope, the
body of the loop, is left: at the end of an iteration, at the `return`, and when the
interrupt check throws. -/
def Advance.leave (cur : SourceIterator) : SourceIterator := cur + 1

/-- The `while (cur_ != end_)` loop of `nextToken`, from cursor `cur` with `polls`
polls made so far, on the given fuel. -/
def scanLoop (src : Source) (check : Nat → Bool) (end_ : SourceIterator) (line_ : Int) :
    Nat → SourceIterator → Nat → Option LoopExit
  | 0, cur, polls => if cur = end_ then some (.done polls) else none
  | fuel + 1, cur, polls =>
    if cur = end_ then some (.done polls)
    else
      -- if ((line_ + 1) % 100000 == 0) Rcpp::checkUserInterrupt();
      let poll : Bool := decide ((line_ + 1).tmod 100000 = 0)
      if poll && check polls then some (.thrown (Advance.leave cur) (polls + 1))
      else
        let polls1 := if poll then polls + 1 else polls
        -- switch (*cur_)
        if src cur = '\r' ∨ src cur = '\n' then
          let r := advanceForLF src cur end_
          some (.ret r.2 (Advance.leave r.1) polls1)
        else scanLoop src check end_ line_ fuel (Advance.leave cur) polls1

/-- How a call of `nextToken` ends. -/
inductive Outcome where
  /-- The call returned the token `tok`, leaving the object as `t`. -/
  | returned (tok : Token) (t : TokenizerLine) (polls : Nat)
  /-- The call was left by the interrupt exception, leaving the object as `t`. -/
  | interrupted (t : TokenizerLine) (polls : Nat)
  deriving DecidableEq

/-- `TokenizerLine::nextToken()`.  The result is `none` when the loop runs out of
the buffer (cursor beyond `end_`). -/
def TokenizerLine.nextToken (src : Source) (check : Nat → Bool) (t : TokenizerLine)
    (polls : Nat) : Option Outcome :=
  let token_begin := t.cur_
  let line := t.line_
  if !t.moreTokens_ then some (.returned (.eof line 0) t polls)
  else
    match scanLoop src check t.end_ t.line_ (t.end_ - t.cur_) t.cur_ polls with
    | none => none
    | some (.thrown cur p) => some (.interrupted { t with cur_ := cur } p)
    | some (.ret tokEnd cur p) =>
      some (.returned (.field token_begin tokEnd line 0) { t with cur_ := cur } p)
    | some (.done p) =>
      -- Reached end of Source: cur_ == end_
      let t1 := { t with cur_ := t.end_, moreTokens_ := false }
      if token_begin = t.end_ then some (.returned (.eof line 0) t1 p)
      else some (.returned (.field token_begin t.end_ line 0) t1 p)

/-- The result of `n` successive calls of `nextToken`: the tokens returned, in
order, the final object and the final number of polls.  It is `none` when one of
the calls does not return a token. -/
def nextTokens (src : Source) (check : Nat → Bool) :
    Nat → TokenizerLine → Nat → Option (List Token × TokenizerLine × Nat)
  | 0, t, polls => some ([], t, polls)
  | n + 1, t, polls =>
    match t.nextToken src check polls with
    | some (.returned tok t1 p1) =>
      match nextTokens src check n t1 p1 with
      | some (toks, r) => some (tok :: toks, r)
      | none => none
    | _ => none

/-- The memory that holds the characters of `s` from address `base` on (and a NUL
everywhere else). -/
def sourceAt (base : SourceIterator) (s : List Char) : Source :=
  fun a => if a < base then '\x00' else s.getD (a - base) '\x00'

/-! ## Reference notions for the statements -/

/-- A line terminator byte: `\r` or `\n`. -/
def isTerminator (c : Char) : Prop := c = '\r' ∨ c = '\n'

instance : DecidablePred isTerminator := fun c =>
  inferInstanceAs (Decidable (c = '\r' ∨ c = '\n'))

/-- The number of bytes of the terminator standing at address `q` of the buffer
that ends at `e`: 2 for a `\r\n` pair inside the buffer, 1 for a lone `\r` or
`\n`. -/
def terminatorLength (src : Source) (e q : Nat) : Nat :=
  if src q = '\r' ∧ q + 1 < e ∧ src (q + 1) = '\n' then 2 else 1

/-- The FIELD token of line 0 with the given range. -/
def fieldOf (r : Nat × Nat) : Token := .field r.1 r.2 0 0

/-- The ranges of the lines of the buffer `[cur, e)`: each range is free of
terminator bytes and is followed by a full terminator, but for an unterminated
last line, which ends at `e`. -/
inductive Lines (src : Source) (e : Nat) : Nat → List (Nat × Nat) → Prop where
  | nil : Lines src e e []
  | last (cur : Nat) (hlt : cur < e)
      (hfree : ∀ a, cur ≤ a → a < e → ¬ isTerminator (src a)) :
      Lines src e cur [(cur, e)]
  | cons (cur q : Nat) (rest : List (Nat × Nat))
      (hle : cur ≤ q) (hlt : q < e)
      (hfree : ∀ a, cur ≤ a → a < q → ¬ isTerminator (src a))
      (hterm : isTerminator (src q))
      (hrest : Lines src e (q + terminatorLength src e q) rest) :
      Lines src e cur ((cur, q) :: rest)

/-- Prepending a character to the first piece. -/
def consHead (c : Char) : List (List Char) → List (List Char)
  | [] => [[c]]
  | p :: ps => (c :: p) :: ps

/-- Reference: the pieces of a buffer split at its line terminators, where a
terminator is `\r\n` (taken as one terminator), a lone `\r`, or a lone `\n`.  There
is always one piece more than there are terminators. -/
def splitAtTerminators : List Char → List (List Char)
  | [] => [[]]
  | [c] => if isTerminator c then [[], []] else [[c]]
  | c :: d :: rest =>
    if c = '\r' ∧ d = '\n' then [] :: splitAtTerminators rest
    else if isTerminator c then [] :: splitAtTerminators (d :: rest)
    else consHead c (splitAtTerminators (d :: rest))

/-- Leaving out the final piece when it is empty. -/
def dropFinalEmpty : List (List Char) → List (List Char)
  | [] => []
  | [p] => if p = [] then [] else [p]
  | p :: q :: ps => p :: dropFinalEmpty (q :: ps)

/-- Reference: the lines of a buffer, that is its pieces between line terminators
with a final empty piece not emitted (so a buffer that ends with a terminator has no
line after it, and the empty buffer has no line). -/
def referenceLines (buf : List Char) : List (List Char) :=
  dropFinalEmpty (splitAtTerminators buf)

/-- Reference: the number of line terminators of a buffer, `\r\n` counted as
one. -/
def countTerminators : List Char → Nat
  | [] => 0
  | [c] => if isTerminator c then 1 else 0
  | c :: d :: rest =>
    if c = '\r' ∧ d = '\n' then 1 + countTerminators rest
    else if isTerminator c then 1 + countTerminators (d :: rest)
    else countTerminators (d :: rest)

/-- Reference: whether the last byte of a buffer is a terminator byte. -/
def endsInTerminator : List Char → Bool
  | [] => false
  | [c] => decide (isTerminator c)
  | _ :: d :: rest => endsInTerminator (d :: rest)

/-- The tokens of `n` calls when the lines of the buffer are `sp`: the FIELD tokens
of the lines, then EOF tokens. -/
def expected (sp : List (Nat × Nat)) (n : Nat) : List Token :=
  (sp.map fieldOf).take n ++ List.replicate (n - sp.length) (.eof 0 0)

/-! ## The string encoder of `write_csv.cpp` -/

/-- An output stream, as the characters written to it so far. -/
abbrev Stream := List Char

/-- The `for` loop of `stream_csv(Stream&, const char*)` over the characters of the
C string; the end of the list stands for the terminating NUL. -/
def stream_csv_loop : List Char → Stream → Stream
  | [], output => output
  | c :: rest, output =>
    if c = '\x00' then output
    else if c = '"' then stream_csv_loop rest (output ++ ['"', '"'])
    else stream_csv_loop rest (output ++ [c])

/-- `stream_csv(Stream& output, const char* string)`. -/
def stream_csv_string (output : Stream) (string : List Char) : Stream :=
  let output := output ++ ['"']
  let output := stream_csv_loop string output
  output ++ ['"']

/-- Reference: the bytes of a string with each double quote replaced by two double
quotes and every other byte copied unchanged. -/
def doubleQuotes (s : List Char) : List Char :=
  s.flatMap (fun c => if c = '"' then ['"', '"'] else [c])

/-! ## The cell, row and table encoders of `write_csv.cpp` -/

/-- Modelled from the spec: a value of a double column (the headers of R are not
among the sources): the missing sentinel, a not-a-number that is not the sentinel,
one of the two infinities, or a finite value, here `mantissa * 2 ^ exponent`. -/
inductive RDouble where
  | NA
  | NaN
  | posInf
  | negInf
  | finite (mantissa exponent : Int)
  deriving DecidableEq

/-- Modelled from the spec: `R_FINITE(value)`, true of the finite values only. -/
def R_FINITE : RDouble → Bool
  | .finite _ _ => true
  | _ => false

/-- Modelled from the spec: `ISNA(value)`, true of the missing sentinel only. -/
def ISNA : RDouble → Bool
  | .NA => true
  | _ => false

/-- Modelled from the spec: `ISNAN(value)`, true of every not-a-number; the missing
sentinel of R is itself a not-a-number, so it is true of the sentinel too. -/
def ISNAN : RDouble → Bool
  | .NA => true
  | .NaN => true
  | _ => false

/-- The comparison `value > 0` of a double; it is false of a not-a-number. -/
def RDouble.positive : RDouble → Bool
  | .posInf => true
  | .finite m _ => decide (0 < m)
  | _ => false

/-- Modelled from the spec: the `int` held by a logical cell that is true. -/
def TRUE : Int := 1

/-- Modelled from the spec: the `int` held by a logical cell that is false. -/
def FALSE : Int := 0

/-- Modelled from the spec: the missing sentinel of integer columns, which is the
least 32-bit integer in R and so differs from every other `int`. -/
def NA_INTEGER : Int := -2147483648

/-- A column, by its `TYPEOF`.  A logical or integer column holds `int`s, a double
column holds doubles, a character column holds strings or the missing sentinel
`NA_STRING` (here `none`); a string is the list of its UTF-8 bytes, so
`Rf_translateCharUTF8` is the identity.  A vector of any other type is kept by the
name `Rf_type2char` gives its type and by its length. -/
inductive RObject where
  | LGLSXP (v : List Int)
  | INTSXP (v : List Int)
  | REALSXP (v : List RDouble)
  | STRSXP (v : List (Option (List Char)))
  | other (typeName : List Char) (length : Nat)
  deriving DecidableEq

/-- `Rf_length(x)` of a column. -/
def Rf_length : RObject → Nat
  | .LGLSXP v => v.length
  | .INTSXP v => v.length
  | .REALSXP v => v.length
  | .STRSXP v => v.length
  | .other _ n => n

/-- The stream formatting `output << value` of an `int` and of a finite `double`,
which belongs to the C++ standard library and not to the sources: a parameter of the
encoders. -/
structure Format where
  showInt : Int → List Char
  showDouble : RDouble → List Char

/-- How a function that writes to a `Stream&` ends: it returns, or it is left by the
exception of `Rcpp::stop` with the given message, or it reads a vector beyond its
length (which C++ leaves undefined).  In each case `output` is what the stream holds
then. -/
inductive Result where
  | ok (output : Stream)
  | stop (output : Stream) (message : List Char)
  | outOfBounds (output : Stream)
  deriving DecidableEq

/-- What the stream holds when the function ends. -/
def Result.output : Result → Stream
  | .ok o => o
  | .stop o _ => o
  | .outOfBounds o => o

/-- Sequencing of statements: the rest `f` runs on the stream left by a statement
that returned, and is skipped after an exception. -/
def Result.andThen (r : Result) (f : Stream → Result) : Result :=
  match r with
  | .ok o => f o
  | .stop o m => .stop o m
  | .outOfBounds o => .outOfBounds o

/-- The loop `for (int k = start; k < start + count; ++k) body`. -/
def forLoop (body : Nat → Stream → Result) : Nat → Nat → Stream → Result
  | 0, _, output => .ok output
  | count + 1, k, output => (body k output).andThen (forLoop body count (k + 1))

/-- The message of `Rcpp::stop("Don't know how to handle vector of type %s.", ...)`
for the type name `typeName`. -/
def stopMessage (typeName : List Char) : List Char :=
  "Don't know how to handle vector of type ".toList ++ typeName ++ ".".toList

/-- `stream_csv(Stream& output, RObject x, int i)`: the cell `i` of the column
`x`. -/
def stream_csv_RObject (fmt : Format) (output : Stream) (x : RObject) (i : Nat) : Result :=
  match x with
  | .LGLSXP v =>
    match v[i]? with
    | none => .outOfBounds output
    | some value =>
      if value = TRUE then .ok (output ++ "TRUE".toList)
      else if value = FALSE then .ok (output ++ "FALSE".toList)
      else .ok (output ++ "NA".toList)
  | .INTSXP v =>
    match v[i]? with
    | none => .outOfBounds output
    | some value =>
      if value = NA_INTEGER then .ok (output ++ "NA".toList)
      else .ok (output ++ fmt.showInt value)
  | .REALSXP v =>
    match v[i]? with
    | none => .outOfBounds output
    | some value =>
      if !R_FINITE value then
        if ISNA value then .ok (output ++ "NA".toList)
        else if ISNAN value then .ok (output ++ "NaN".toList)
        else if value.positive then .ok (output ++ "Inf".toList)
        else .ok (output ++ "-Inf".toList)
      else .ok (output ++ fmt.showDouble value)
  | .STRSXP v =>
    match v[i]? with
    | none => .outOfBounds output
    | some value =>
      match value with
      | none => .ok (output ++ "NA".toList)
      | some string => .ok (stream_csv_string output string)
  | .other typeName _ => .stop output (stopMessage typeName)

/-- An `Rcpp::List` that is a data frame: its columns, its `names` attribute as a
character vector, and its declared number of rows (the `row.names` attribute), which
the encoders never read. -/
structure RList where
  cols : List RObject
  names : List (Option (List Char))
  row_names : Nat
  deriving DecidableEq

/-- `stream_csv_row(Stream& output, Rcpp::List x, int i)`. -/
def stream_csv_row (fmt : Format) (output : Stream) (x : RList) (i : Nat) : Result :=
  let p := x.cols.length
  (forLoop (fun j output =>
      match x.cols[j]? with
      | none => .outOfBounds output
      | some col =>
        (stream_csv_RObject fmt output col i).andThen fun output =>
          .ok (if j ≠ p - 1 then output ++ [','] else output))
    p 0 output).andThen fun output =>
  .ok (output ++ ['\n'])

/-- `stream_csv(Stream& output, List df, bool col_names, bool append)`. -/
def stream_csv_List (fmt : Format) (output : Stream) (df : RList) (col_names : Bool)
    (_append : Bool) : Result :=
  let p := df.cols.length
  if p = 0 then .ok output
  else
    let header : Result :=
      if col_names then
        let names : RObject := .STRSXP df.names
        (forLoop (fun j output =>
            (stream_csv_RObject fmt output names j).andThen fun output =>
              .ok (if j ≠ p - 1 then output ++ [','] else output))
          p 0 output).andThen fun output =>
        .ok (output ++ ['\n'])
      else .ok output
    header.andThen fun output =>
      match df.cols[0]? with
      | none => .outOfBounds output
      | some first_col =>
        let n := Rf_length first_col
        forLoop (fun i output => stream_csv_row fmt output df i) n 0 output

/-- The destinations: the content of the file at each path (empty for a file that
does not exist yet), and whether a file at the path can be opened for writing (it
cannot, for instance, in a directory that does not exist). -/
structure Files where
  content : List Char → Stream
  opens : List Char → Bool

/-- The destinations after the file at `path` got the content `content`. -/
def Files.write (fs : Files) (path : List Char) (content : Stream) : Files :=
  { fs with content := fun q => if q = path then content else fs.content q }

/-- How the exported `stream_csv` ends: with its `std::string` result, or by the
exception of `Rcpp::stop`, or after an undefined read. -/
inductive Returned where
  | value (s : List Char)
  | error (message : List Char)
  | undefined
  deriving DecidableEq

/-- The exported `stream_csv(List df, std::string path, bool col_names, bool append)`,
with the files as explicit state.  An `std::ostringstream` starts empty.  An
`std::ofstream` whose file opens starts empty with `trunc` and with the content of
the file with `app`, and the file holds what was written when the stream is
destroyed.  The state of the stream is never tested: when the file does not open,
every `output << ...` is dropped, the encoders run all the same (so `Rcpp::stop` is
still raised), no file is changed and the empty string is returned. -/
def stream_csv (fmt : Format) (fs : Files) (df : RList) (path : List Char)
    (col_names : Bool) (append : Bool) : Returned × Files :=
  if path = [] then
    match stream_csv_List fmt [] df col_names append with
    | .ok output => (.value output, fs)
    | .stop _ m => (.error m, fs)
    | .outOfBounds _ => (.undefined, fs)
  else if fs.opens path then
    let opened : Stream := if append then fs.content path else []
    match stream_csv_List fmt opened df col_names append with
    | .ok output => (.value [], fs.write path output)
    | .stop output m => (.error m, fs.write path output)
    | .outOfBounds output => (.undefined, fs.write path output)
  else
    match stream_csv_List fmt [] df col_names append with
    | .ok _ => (.value [], fs)
    | .stop _ m => (.error m, fs)
    | .outOfBounds _ => (.undefined, fs)

/-- A formatter for the examples: integers in decimal, the double `3 * 2 ^ (-1)` as
`1.5`, and any other finite double by its mantissa and exponent. -/
def sampleFormat : Format where
  showInt := fun n => (toString n).toList
  showDouble := fun value =>
    match value with
    | .finite m e =>
      if m = 3 ∧ e = -1 then "1.5".toList
      else (toString m).toList ++ ['p'] ++ (toString e).toList
    | _ => []

/-! ## Reference notions for the encoders -/

/-- A stream result with `out` written in front of its output. -/
def Result.prepend (out : Stream) : Result → Result
  | .ok o => .ok (out ++ o)
  | .stop o m => .stop (out ++ o) m
  | .outOfBounds o => .outOfBounds (out ++ o)

/-- A writer only appends to what the stream already holds. -/
def Extends (f : Stream → Result) : Prop := ∀ out, f out = (f []).prepend out

/-- Reference: texts joined with `,`, no separator after the last one. -/
def joinComma : List (List Char) → List Char
  | [] => []
  | [a] => a
  | a :: b :: rest => a ++ [','] ++ joinComma (b :: rest)

/-- The text of the cell `i` of a column: what the cell encoder writes to an empty
stream. -/
def cellText (fmt : Format) (col : RObject) (i : Nat) : List Char :=
  (stream_csv_RObject fmt [] col i).output

/-- Reference: the text of a String value, unquoted `NA` for the missing sentinel and
otherwise the string in double quotes with its double quotes doubled. -/
def stringText : Option (List Char) → List Char
  | none => "NA".toList
  | some s => ['"'] ++ doubleQuotes s ++ ['"']

/-- Reference: the text of a Double value, by the cases of the specification in
their order. -/
def doubleText (fmt : Format) (value : RDouble) : List Char :=
  if ISNA value then "NA".toList
  else if ISNAN value then "NaN".toList
  else if value = .posInf then "Inf".toList
  else if value = .negInf then "-Inf".toList
  else fmt.showDouble value

/-- Reference: a decoder of quoted text, after its opening quote: two double quotes
stand for one, a single double quote closes the text. -/
def unquote : List Char → List Char
  | [] => []
  | [c] => if c = '"' then [] else [c]
  | c :: d :: rest =>
    if c = '"' then (if d = '"' then '"' :: unquote rest else [])
    else c :: unquote (d :: rest)

/-- Reference: a decoder of the text of a String cell: quoted text is a string, any
other text (so the unquoted `NA`) is the missing value. -/
def decodeString : List Char → Option (List Char)
  | [] => none
  | c :: rest => if c = '"' then some (unquote rest) else none

/-- Whether a String value is free of NUL bytes (a C string cannot hold one). -/
def nulFree : Option (List Char) → Prop
  | none => True
  | some s => '\x00' ∉ s

/-- Whether the kind of a column is Logical, Integer, Double or String. -/
def supported : RObject → Bool
  | .other _ _ => false
  | _ => true

/-- Reference: the header row, the names in column order, each encoded as a String
cell, joined with `,` and terminated by `\n`. -/
def headerText (fmt : Format) (names : List (Option (List Char))) : List Char :=
  joinComma (names.map (fun v => cellText fmt (.STRSXP [v]) 0)) ++ ['\n']

/-- Reference: the row `i`, the cells of the columns in column order joined with `,`
and terminated by `\n`. -/
def rowText (fmt : Format) (cols : List RObject) (i : Nat) : List Char :=
  joinComma (cols.map (fun col => cellText fmt col i)) ++ ['\n']

/-! ## The scan loop -/

theorem terminatorLength_pos (src : Source) (e q : Nat) :
    1 ≤ terminatorLength src e q := by
  unfold terminatorLength; split <;> omega

theorem terminatorLength_le (src : Source) (e q : Nat) (h : q < e) :
    q + terminatorLength src e q ≤ e := by
  unfold terminatorLength
  split
  · rename_i hc
    have := hc.2.1
    omega
  · omega

theorem advanceForLF_eq (src : Source) (e q : Nat) (h : q < e) :
    advanceForLF src q e = (q + terminatorLength src e q - 1, q) := by
  unfold advanceForLF terminatorLength
  have hiff : (q + 1 ≠ e) ↔ (q + 1 < e) := by omega
  by_cases hc : src q = '\r' ∧ q + 1 < e ∧ src (q + 1) = '\n'
  · have hc2 : src q = '\r' ∧ q + 1 ≠ e ∧ src (q + 1) = '\n' :=
      ⟨hc.1, hiff.mpr hc.2.1, hc.2.2⟩
    rw [if_pos hc, if_pos hc2]
    simp
  · have hc2 : ¬ (src q = '\r' ∧ q + 1 ≠ e ∧ src (q + 1) = '\n') :=
      fun h2 => hc ⟨h2.1, hiff.mp h2.2.1, h2.2.2⟩
    rw [if_neg hc, if_neg hc2]
    simp

/-- With the line counter at 0 the loop never polls: it either runs to `e` over
terminator-free bytes, or returns at the first terminator `q`, leaving the cursor
after the full terminator. -/
theorem scanLoop_line_zero (src : Source) (check : Nat → Bool) (e : Nat)
    (p : Nat) : ∀ (fuel : Nat) (cur : Nat), cur + fuel = e →
    ((∀ a, cur ≤ a → a < e → ¬ isTerminator (src a)) ∧
      scanLoop src check e 0 fuel cur p = some (.done p)) ∨
    (∃ q, cur ≤ q ∧ q < e ∧ (∀ a, cur ≤ a → a < q → ¬ isTerminator (src a)) ∧
      isTerminator (src q) ∧
      scanLoop src check e 0 fuel cur p =
        some (.ret q (q + terminatorLength src e q) p)) := by
  intro fuel
  induction fuel with
  | zero =>
    intro cur h
    left
    refine ⟨fun a h1 h2 => by omega, ?_⟩
    have hce : cur = e := by omega
    simp only [scanLoop]
    rw [if_pos hce]
  | succ fuel ih =>
    intro cur h
    have hne : cur ≠ e := by omega
    have hpoll : decide ((0 + 1 : Int).tmod 100000 = 0) = false := by decide
    by_cases ht : src cur = '\r' ∨ src cur = '\n'
    · right
      refine ⟨cur, le_refl _, by omega, fun a h1 h2 => by omega, ht, ?_⟩
      have h1 := terminatorLength_pos src e cur
      simp only [scanLoop, Advance.leave, if_neg hne, hpoll, Bool.false_and, if_pos ht,
        advanceForLF_eq src e cur (by omega)]
      have h2 : cur + terminatorLength src e cur - 1 + 1 = cur + terminatorLength src e cur := by
        omega
      simp [h2]
    · rcases ih (cur + 1) (by omega) with ⟨hfree, hs⟩ | ⟨q, hq1, hq2, hfree, hterm, hs⟩
      · left
        refine ⟨fun a h1 h2 => ?_, ?_⟩
        · by_cases ha : a = cur
          · subst ha; exact ht
          · exact hfree a (by omega) h2
        · simp only [scanLoop, Advance.leave, if_neg hne, hpoll, Bool.false_and, if_neg ht]
          simpa using hs
      · right
        refine ⟨q, by omega, hq2, fun a h1 h2 => ?_, hterm, ?_⟩
        · by_cases ha : a = cur
          · subst ha; exact ht
          · exact hfree a (by omega) h2
        · simp only [scanLoop, Advance.leave, if_neg hne, hpoll, Bool.false_and, if_neg ht]
          simpa using hs

/-! ## One call and successive calls of `nextToken` -/

/-- Once `moreTokens_` is cleared, `nextToken` returns EOF and changes nothing. -/
theorem nextToken_exhausted (src : Source) (check : Nat → Bool) (t : TokenizerLine)
    (p : Nat) (h : t.moreTokens_ = false) :
    t.nextToken src check p = some (.returned (.eof t.line_ 0) t p) := by
  simp [TokenizerLine.nextToken, h]

theorem nextTokens_exhausted (src : Source) (check : Nat → Bool) (t : TokenizerLine)
    (p : Nat) (h : t.moreTokens_ = false) (n : Nat) :
    nextTokens src check n t p = some (List.replicate n (.eof t.line_ 0), t, p) := by
  induction n with
  | zero => simp [nextTokens]
  | succ n ih => simp [nextTokens, nextToken_exhausted src check t p h, ih, List.replicate_succ]

/-- A call on an armed tokenizer at line 0 whose remaining bytes hold no
terminator. -/
theorem nextToken_no_terminator (src : Source) (check : Nat → Bool) (g cur e p : Nat)
    (hle : cur ≤ e) (hfree : ∀ a, cur ≤ a → a < e → ¬ isTerminator (src a)) :
    TokenizerLine.nextToken src check ⟨g, cur, e, true, 0⟩ p =
      some (.returned (if cur = e then .eof 0 0 else .field cur e 0 0)
        ⟨g, e, e, false, 0⟩ p) := by
  have hs : scanLoop src check e 0 (e - cur) cur p = some (.done p) := by
    rcases scanLoop_line_zero src check e p (e - cur) cur (by omega) with
      ⟨_, hs⟩ | ⟨q, hq1, hq2, _, hterm, _⟩
    · exact hs
    · exact absurd hterm (hfree q hq1 hq2)
  simp only [TokenizerLine.nextToken, hs]
  by_cases hc : cur = e <;> simp [hc]

/-- A call on an armed tokenizer at line 0 whose first terminator stands at `q`. -/
theorem nextToken_terminator (src : Source) (check : Nat → Bool) (g cur e p q : Nat)
    (hq1 : cur ≤ q) (hq2 : q < e)
    (hfree : ∀ a, cur ≤ a → a < q → ¬ isTerminator (src a))
    (hterm : isTerminator (src q)) :
    TokenizerLine.nextToken src check ⟨g, cur, e, true, 0⟩ p =
      some (.returned (.field cur q 0 0)
        ⟨g, q + terminatorLength src e q, e, true, 0⟩ p) := by
  have hs : scanLoop src check e 0 (e - cur) cur p =
      some (.ret q (q + terminatorLength src e q) p) := by
    rcases scanLoop_line_zero src check e p (e - cur) cur (by omega) with
      ⟨hfree2, _⟩ | ⟨q2, h1, h2, hfree2, hterm2, hs⟩
    · exact absurd hterm (hfree2 q hq1 hq2)
    · have hqq : q2 = q := by
        rcases Nat.lt_trichotomy q2 q with hlt | heq | hgt
        · exact absurd hterm2 (hfree q2 h1 hlt)
        · exact heq
        · exact absurd hterm (hfree2 q hq1 hgt)
      rw [hqq] at hs
      exact hs
  simp [TokenizerLine.nextToken, hs]

/-- After `tokenize`, successive calls return the lines of the buffer as FIELD
tokens of line 0, then EOF tokens of line 0; no call polls the interrupt check,
and the object keeps `begin_`, `end_` and `line_ = 0`, with the cursor in the
buffer. -/
theorem nextTokens_lines (src : Source) (check : Nat → Bool) (g e p : Nat) :
    ∀ (d cur : Nat), cur + d = e →
    ∃ sp, Lines src e cur sp ∧ ∀ n, ∃ t1,
      nextTokens src check n ⟨g, cur, e, true, 0⟩ p = some (expected sp n, t1, p) ∧
      t1.begin_ = g ∧ t1.end_ = e ∧ t1.line_ = 0 ∧ cur ≤ t1.cur_ ∧ t1.cur_ ≤ e := by
  intro d
  induction d using Nat.strong_induction_on with
  | _ d ih =>
    intro cur hd
    have hle : cur ≤ e := by omega
    rcases scanLoop_line_zero src check e p (e - cur) cur (by omega) with
      ⟨hfree, _⟩ | ⟨q, hq1, hq2, hfree, hterm, _⟩
    · -- no terminator left
      have hstep := nextToken_no_terminator src check g cur e p hle hfree
      have hex := nextTokens_exhausted src check ⟨g, e, e, false, 0⟩ p rfl
      by_cases hc : cur = e
      · subst hc
        refine ⟨[], Lines.nil, fun n => ?_⟩
        cases n with
        | zero =>
          exact ⟨⟨g, cur, cur, true, 0⟩, by simp [nextTokens, expected], rfl, rfl, rfl,
            le_refl _, le_refl _⟩
        | succ n =>
          refine ⟨⟨g, cur, cur, false, 0⟩, ?_, rfl, rfl, rfl, le_refl _, le_refl _⟩
          simp [nextTokens, hstep, hex n, expected, List.replicate_succ]
      · refine ⟨[(cur, e)], Lines.last cur (by omega) hfree, fun n => ?_⟩
        cases n with
        | zero =>
          exact ⟨⟨g, cur, e, true, 0⟩, by simp [nextTokens, expected], rfl, rfl, rfl,
            le_refl _, hle⟩
        | succ n =>
          refine ⟨⟨g, e, e, false, 0⟩, ?_, rfl, rfl, rfl, hle, le_refl _⟩
          simp [nextTokens, hstep, hex n, expected, hc, fieldOf]
    · -- first terminator at q
      have hstep := nextToken_terminator src check g cur e p q hq1 hq2 hfree hterm
      have h1 := terminatorLength_pos src e q
      have h2 := terminatorLength_le src e q hq2
      obtain ⟨sp, hsp, hrun⟩ := ih (e - (q + terminatorLength src e q)) (by omega)
        (q + terminatorLength src e q) (by omega)
      refine ⟨(cur, q) :: sp, Lines.cons cur q sp hq1 hq2 hfree hterm hsp, fun n => ?_⟩
      cases n with
      | zero =>
        exact ⟨⟨g, cur, e, true, 0⟩, by simp [nextTokens, expected], rfl, rfl, rfl,
          le_refl _, hle⟩
      | succ n =>
        obtain ⟨t1, hn, hb, he, hl, hc1, hc2⟩ := hrun n
        refine ⟨t1, ?_, hb, he, hl, by omega, hc2⟩
        simp [nextTokens, hstep, hn, expected, fieldOf]

/-! ## Bytes of a range -/

theorem bytes_self (src : Source) (e : Nat) : bytes src e e = [] := by
  simp [bytes]

theorem bytes_cons (src : Source) (b e : Nat) (h : b < e) :
    bytes src b e = src b :: bytes src (b + 1) e := by
  have h1 : e - b = (e - (b + 1)) + 1 := by omega
  simp only [bytes]
  rw [h1, List.range'_succ]
  simp

theorem bytes_append (src : Source) (b q e : Nat) (h1 : b ≤ q) (h2 : q ≤ e) :
    bytes src b e = bytes src b q ++ bytes src q e := by
  have h3 : e - b = (e - q) + (q - b) := by omega
  have h4 : b + 1 * (q - b) = q := by omega
  simp only [bytes]
  rw [h3, ← List.range'_append b (q - b) (e - q) 1, h4, List.map_append]

theorem mem_bytes (src : Source) (b e : Nat) (c : Char) (h : c ∈ bytes src b e) :
    ∃ a, b ≤ a ∧ a < e ∧ src a = c := by
  simp only [bytes, List.mem_map, List.mem_range'] at h
  obtain ⟨a, ⟨i, hi, ha⟩, hc⟩ := h
  exact ⟨a, by omega, by omega, hc⟩

theorem bytes_ne_nil (src : Source) (b e : Nat) (h : b < e) : bytes src b e ≠ [] := by
  rw [bytes_cons src b e h]
  exact List.cons_ne_nil _ _

/-! ## The reference split, one byte at a time -/

theorem splitAtTerminators_ne_nil (l : List Char) : splitAtTerminators l ≠ [] := by
  match l with
  | [] => simp [splitAtTerminators]
  | [c] =>
    simp only [splitAtTerminators]
    split <;> simp
  | c :: d :: rest =>
    simp only [splitAtTerminators]
    split
    · simp
    · split
      · simp
      · have := splitAtTerminators_ne_nil (d :: rest)
        cases hs : splitAtTerminators (d :: rest) with
        | nil => exact absurd hs this
        | cons x xs => simp [consHead]

theorem splitAtTerminators_cons_free (c : Char) (l : List Char) (h : ¬ isTerminator c) :
    splitAtTerminators (c :: l) = consHead c (splitAtTerminators l) := by
  have hr : c ≠ '\r' := fun hc => h (Or.inl hc)
  cases l with
  | nil => simp [splitAtTerminators, h, consHead]
  | cons d rest => simp [splitAtTerminators, h, hr]

theorem splitAtTerminators_cons_lone (c : Char) (l : List Char) (h : isTerminator c)
    (hp : ¬ (c = '\r' ∧ l.head? = some '\n')) :
    splitAtTerminators (c :: l) = [] :: splitAtTerminators l := by
  cases l with
  | nil => simp [splitAtTerminators, h]
  | cons d rest =>
    have hp2 : ¬ (c = '\r' ∧ d = '\n') := by simpa using hp
    simp only [splitAtTerminators]
    rw [if_neg hp2, if_pos h]

theorem splitAtTerminators_crlf (l : List Char) :
    splitAtTerminators ('\r' :: '\n' :: l) = [] :: splitAtTerminators l := by
  simp [splitAtTerminators]

theorem countTerminators_cons_free (c : Char) (l : List Char) (h : ¬ isTerminator c) :
    countTerminators (c :: l) = countTerminators l := by
  have hr : c ≠ '\r' := fun hc => h (Or.inl hc)
  cases l with
  | nil => simp [countTerminators, h]
  | cons d rest => simp [countTerminators, h, hr]

theorem countTerminators_cons_lone (c : Char) (l : List Char) (h : isTerminator c)
    (hp : ¬ (c = '\r' ∧ l.head? = some '\n')) :
    countTerminators (c :: l) = 1 + countTerminators l := by
  cases l with
  | nil => simp [countTerminators, h]
  | cons d rest =>
    have hp2 : ¬ (c = '\r' ∧ d = '\n') := by simpa using hp
    simp only [countTerminators]
    rw [if_neg hp2, if_pos h]

theorem countTerminators_crlf (l : List Char) :
    countTerminators ('\r' :: '\n' :: l) = 1 + countTerminators l := by
  simp [countTerminators]

theorem endsInTerminator_cons (c : Char) (l : List Char) (h : l ≠ []) :
    endsInTerminator (c :: l) = endsInTerminator l := by
  cases l with
  | nil => exact absurd rfl h
  | cons d rest => simp [endsInTerminator]

theorem dropFinalEmpty_cons (p : List Char) (ps : List (List Char)) (h : ps ≠ []) :
    dropFinalEmpty (p :: ps) = p :: dropFinalEmpty ps := by
  cases ps with
  | nil => exact absurd rfl h
  | cons q qs => simp [dropFinalEmpty]

/-- A terminator-free buffer is a single piece, has no terminator and does not end
in one. -/
theorem free_facts (l : List Char) (h : ∀ c ∈ l, ¬ isTerminator c) :
    splitAtTerminators l = [l] ∧ countTerminators l = 0 ∧ endsInTerminator l = false := by
  induction l with
  | nil => simp [splitAtTerminators, countTerminators, endsInTerminator]
  | cons c l ih =>
    have hc : ¬ isTerminator c := h c (List.mem_cons_self _ _)
    obtain ⟨h1, h2, h3⟩ := ih (fun x hx => h x (List.mem_cons_of_mem _ hx))
    refine ⟨?_, ?_, ?_⟩
    · rw [splitAtTerminators_cons_free c l hc, h1]; rfl
    · rw [countTerminators_cons_free c l hc, h2]
    · cases l with
      | nil => simp [endsInTerminator, hc]
      | cons d rest => rw [endsInTerminator_cons c _ (List.cons_ne_nil _ _), h3]

/-- A terminator-free run in front of a buffer that starts with a terminator. -/
theorem free_append_facts (a l : List Char) (s : List (List Char))
    (h : ∀ c ∈ a, ¬ isTerminator c) (hl : l ≠ []) (hs : splitAtTerminators l = [] :: s) :
    splitAtTerminators (a ++ l) = a :: s ∧
    countTerminators (a ++ l) = countTerminators l ∧
    endsInTerminator (a ++ l) = endsInTerminator l := by
  induction a with
  | nil => exact ⟨by simpa using hs, rfl, rfl⟩
  | cons c a ih =>
    have hc : ¬ isTerminator c := h c (List.mem_cons_self _ _)
    obtain ⟨h1, h2, h3⟩ := ih (fun x hx => h x (List.mem_cons_of_mem _ hx))
    refine ⟨?_, ?_, ?_⟩
    · rw [List.cons_append, splitAtTerminators_cons_free c _ hc, h1]; rfl
    · rw [List.cons_append, countTerminators_cons_free c _ hc, h2]
    · rw [List.cons_append, endsInTerminator_cons c _ (by simp [hl]), h3]

/-! ## The lines of a buffer against the reference split -/

/-- The reference notions across the terminator that stands at address `q`. -/
theorem terminator_facts (src : Source) (e q : Nat) (hq : q < e)
    (hterm : isTerminator (src q)) :
    splitAtTerminators (bytes src q e) =
      [] :: splitAtTerminators (bytes src (q + terminatorLength src e q) e) ∧
    countTerminators (bytes src q e) =
      1 + countTerminators (bytes src (q + terminatorLength src e q) e) ∧
    endsInTerminator (bytes src q e) =
      (if bytes src (q + terminatorLength src e q) e = [] then true
       else endsInTerminator (bytes src (q + terminatorLength src e q) e)) := by
  by_cases hp : src q = '\r' ∧ q + 1 < e ∧ src (q + 1) = '\n'
  · have htl : terminatorLength src e q = 2 := by simp [terminatorLength, hp]
    have hb : bytes src q e = '\r' :: '\n' :: bytes src (q + 2) e := by
      rw [bytes_cons src q e hq, bytes_cons src (q + 1) e hp.2.1, hp.1, hp.2.2]
    rw [htl, hb]
    refine ⟨splitAtTerminators_crlf _, countTerminators_crlf _, ?_⟩
    by_cases hr : bytes src (q + 2) e = []
    · rw [hr]; decide
    · rw [if_neg hr, endsInTerminator_cons _ _ (List.cons_ne_nil _ _),
        endsInTerminator_cons _ _ hr]
  · have htl : terminatorLength src e q = 1 := by simp only [terminatorLength, if_neg hp]
    have hb : bytes src q e = src q :: bytes src (q + 1) e := bytes_cons src q e hq
    have hlone : ¬ (src q = '\r' ∧ (bytes src (q + 1) e).head? = some '\n') := by
      intro h
      by_cases h1 : q + 1 < e
      · rw [bytes_cons src (q + 1) e h1] at h
        have h2 : src (q + 1) = '\n' := by simpa using h.2
        exact hp ⟨h.1, h1, h2⟩
      · have h3 : bytes src (q + 1) e = [] := by
          have h4 : e - (q + 1) = 0 := by omega
          simp [bytes, h4]
        rw [h3] at h
        simp at h
    rw [htl, hb]
    refine ⟨splitAtTerminators_cons_lone _ _ hterm hlone,
      countTerminators_cons_lone _ _ hterm hlone, ?_⟩
    by_cases hr : bytes src (q + 1) e = []
    · rw [hr]; simp [endsInTerminator, hterm]
    · rw [if_neg hr, endsInTerminator_cons _ _ hr]

/-- The lines found by the scan are the reference lines of the buffer, and their
number is the number of terminators, plus one for an unterminated last line. -/
theorem lines_reference (src : Source) (e cur : Nat) (sp : List (Nat × Nat))
    (h : Lines src e cur sp) :
    sp.map (fun r => bytes src r.1 r.2) = referenceLines (bytes src cur e) ∧
    sp.length = countTerminators (bytes src cur e) +
      (if bytes src cur e = [] ∨ endsInTerminator (bytes src cur e) = true then 0 else 1) := by
  induction h with
  | nil => simp [bytes_self, referenceLines, splitAtTerminators, dropFinalEmpty, countTerminators]
  | last cur hlt hfree =>
    have hne := bytes_ne_nil src cur e hlt
    have hf : ∀ c ∈ bytes src cur e, ¬ isTerminator c := by
      intro c hc
      obtain ⟨a, h1, h2, h3⟩ := mem_bytes src cur e c hc
      rw [← h3]
      exact hfree a h1 h2
    obtain ⟨h1, h2, h3⟩ := free_facts _ hf
    refine ⟨?_, ?_⟩
    · simp [referenceLines, h1, dropFinalEmpty, hne]
    · simp [h2, h3, hne]
  | cons cur q rest hle hlt hfree hterm hrest ih =>
    have hf : ∀ c ∈ bytes src cur q, ¬ isTerminator c := by
      intro c hc
      obtain ⟨a, h1, h2, h3⟩ := mem_bytes src cur q c hc
      rw [← h3]
      exact hfree a h1 h2
    obtain ⟨t1, t2, t3⟩ := terminator_facts src e q hlt hterm
    have hne := bytes_ne_nil src q e hlt
    obtain ⟨a1, a2, a3⟩ := free_append_facts (bytes src cur q) (bytes src q e) _ hf hne t1
    have happ := bytes_append src cur q e hle (le_of_lt hlt)
    have hne2 : bytes src cur e ≠ [] := bytes_ne_nil src cur e (by omega)
    obtain ⟨ih1, ih2⟩ := ih
    refine ⟨?_, ?_⟩
    · rw [happ]
      simp only [referenceLines, a1, List.map_cons]
      rw [dropFinalEmpty_cons _ _ (splitAtTerminators_ne_nil _), ih1]
      rfl
    · rw [List.length_cons, ih2]
      rw [happ] at hne2 ⊢
      rw [a2, a3, t2, t3]
      by_cases hr : bytes src (q + terminatorLength src e q) e = []
      · simp [hr, hne2, countTerminators]
      · simp only [hr, if_false, false_or, hne2]
        split <;> omega

/-! ## Shape of the lines and of the expected tokens -/

theorem lines_le (src : Source) (e cur : Nat) (sp : List (Nat × Nat))
    (h : Lines src e cur sp) : cur ≤ e := by
  cases h with
  | nil => exact le_refl _
  | last hlt hfree => omega
  | cons q rest hle hlt hfree hterm hrest => omega

/-- Every line lies in the buffer and holds no terminator byte. -/
theorem lines_ranges (src : Source) (e cur : Nat) (sp : List (Nat × Nat))
    (h : Lines src e cur sp) :
    ∀ r ∈ sp, cur ≤ r.1 ∧ r.1 ≤ r.2 ∧ r.2 ≤ e ∧
      ∀ a, r.1 ≤ a → a < r.2 → ¬ isTerminator (src a) := by
  induction h with
  | nil => intro r hr; simp at hr
  | last cur hlt hfree =>
    intro r hr
    simp only [List.mem_singleton] at hr
    subst hr
    exact ⟨le_refl _, le_of_lt hlt, le_refl _, hfree⟩
  | cons cur q rest hle hlt hfree hterm hrest ih =>
    intro r hr
    rcases List.mem_cons.mp hr with h1 | h1
    · subst h1
      exact ⟨le_refl _, hle, le_of_lt hlt, hfree⟩
    · obtain ⟨i1, i2, i3, i4⟩ := ih r h1
      have := terminatorLength_pos src e q
      exact ⟨by omega, i2, i3, i4⟩

/-- The first line starts at the start of the buffer. -/
theorem lines_head (src : Source) (e cur : Nat) (sp : List (Nat × Nat))
    (h : Lines src e cur sp) : ∀ r, sp.head? = some r → r.1 = cur := by
  intro r hr
  cases h with
  | nil => simp at hr
  | last hlt hfree => simp at hr; rw [← hr]
  | cons q rest hle hlt hfree hterm hrest => simp at hr; rw [← hr]

/-- Each line but the last ends at a terminator, and the next line starts right
after the full terminator. -/
theorem lines_next (src : Source) (e cur : Nat) (sp : List (Nat × Nat))
    (h : Lines src e cur sp) :
    ∀ (i : Nat) (r1 r2 : Nat × Nat), sp[i]? = some r1 → sp[i + 1]? = some r2 →
      r1.2 < e ∧ isTerminator (src r1.2) ∧ r2.1 = r1.2 + terminatorLength src e r1.2 := by
  induction h with
  | nil => intro i r1 r2 h1; simp at h1
  | last cur hlt hfree => intro i r1 r2 h1 h2; simp at h2
  | cons cur q rest hle hlt hfree hterm hrest ih =>
    intro i r1 r2 h1 h2
    cases i with
    | zero =>
      simp only [List.getElem?_cons_zero, Option.some.injEq] at h1
      simp only [zero_add, List.getElem?_cons_succ] at h2
      have hh : rest.head? = some r2 := by
        rw [List.head?_eq_getElem?]; exact h2
      have := lines_head src e _ rest hrest r2 hh
      subst h1
      exact ⟨hlt, hterm, this⟩
    | succ i =>
      simp only [List.getElem?_cons_succ] at h1 h2
      exact ih i r1 r2 h1 h2

theorem expected_getElem (sp : List (Nat × Nat)) (n i : Nat) (tb te : Nat) (l x : Int)
    (h : (expected sp n)[i]? = some (.field tb te l x)) :
    sp[i]? = some (tb, te) ∧ l = 0 ∧ x = 0 := by
  simp only [expected, List.getElem?_append, List.length_take, List.length_map] at h
  split at h
  · rw [List.getElem?_take, List.getElem?_map] at h
    split at h
    · cases hs : sp[i]? with
      | none => simp [hs] at h
      | some r =>
        simp only [hs, Option.map_some', fieldOf, Option.some.injEq, Token.field.injEq] at h
        obtain ⟨h1, h2, h3, h4⟩ := h
        exact ⟨by rw [← h1, ← h2], h3.symm, h4.symm⟩
    · simp at h
  · rw [List.getElem?_replicate] at h
    split at h <;> simp at h

theorem expected_mem (sp : List (Nat × Nat)) (n : Nat) (k : Token)
    (h : k ∈ expected sp n) : k = .eof 0 0 ∨ ∃ r ∈ sp, k = fieldOf r := by
  simp only [expected, List.mem_append] at h
  rcases h with h | h
  · right
    have h1 := List.mem_of_mem_take h
    simp only [List.mem_map] at h1
    obtain ⟨r, hr, hk⟩ := h1
    exact ⟨r, hr, hk.symm⟩
  · left
    exact (List.mem_replicate.mp h).2

theorem expected_fields (sp : List (Nat × Nat)) (n : Nat) :
    (expected sp n).filter (fun k => !k.isEOF) = (sp.map fieldOf).take n := by
  have h1 : ∀ l : List (Nat × Nat), (l.map fieldOf).filter (fun k => !k.isEOF) = l.map fieldOf := by
    intro l
    rw [List.filter_eq_self]
    intro k hk
    simp only [List.mem_map] at hk
    obtain ⟨r, _, hr⟩ := hk
    rw [← hr]; rfl
  have h2 : ∀ m : Nat, (List.replicate m (Token.eof 0 0)).filter (fun k => !k.isEOF) = [] := by
    intro m
    rw [List.filter_eq_nil_iff]
    intro k hk
    rw [(List.mem_replicate.mp hk).2]
    simp [Token.isEOF]
  simp only [expected, List.filter_append, h2, List.append_nil]
  rw [← List.map_take, h1]

theorem expected_past (sp : List (Nat × Nat)) (n : Nat) :
    expected sp (sp.length + 1 + n) =
      sp.map fieldOf ++ List.replicate (1 + n) (.eof 0 0) := by
  have h1 : sp.length + 1 + n - sp.length = 1 + n := by omega
  simp only [expected, h1]
  rw [List.take_of_length_le (by simp; omega)]

/-! ## The tokenizer after `tokenize` -/

/-- After `tokenize(b, e)` on a range with `b ≤ e`, whatever the object held before:
the calls return the lines of `[b, e)` and then EOF tokens, without ever polling. -/
theorem tokenize_run (src : Source) (check : Nat → Bool) (t : TokenizerLine)
    (b e p : Nat) (h : b ≤ e) :
    ∃ sp, Lines src e b sp ∧ ∀ n, ∃ t1,
      nextTokens src check n (t.tokenize b e) p = some (expected sp n, t1, p) ∧
      t1.begin_ = t.begin_ ∧ t1.end_ = e ∧ t1.line_ = 0 ∧ b ≤ t1.cur_ ∧ t1.cur_ ≤ e :=
  nextTokens_lines src check t.begin_ e p (e - b) b (by omega)

/-- In a memory of `\n` bytes every byte is a line of its own. -/
theorem lines_all_newlines (e cur : Nat) (sp : List (Nat × Nat))
    (h : Lines (fun _ => '\n') e cur sp) : sp.length = e - cur := by
  induction h with
  | nil => simp
  | last cur hlt hfree => exact absurd (Or.inr rfl) (hfree cur (le_refl _) hlt)
  | cons cur q rest hle hlt hfree hterm hrest ih =>
    have hq : q = cur := by
      by_contra hne
      exact hfree cur (le_refl _) (by omega) (Or.inr rfl)
    have htl : terminatorLength (fun _ => '\n') e q = 1 := by
      simp [terminatorLength]
    rw [htl] at ih
    rw [List.length_cons, ih]
    omega

theorem stream_csv_loop_eq (s : List Char) (h : '\x00' ∉ s) :
    ∀ output : Stream, stream_csv_loop s output = output ++ doubleQuotes s := by
  induction s with
  | nil => intro output; simp [stream_csv_loop, doubleQuotes]
  | cons c rest ih =>
    intro output
    have hc : c ≠ '\x00' := fun hc => h (by simp [hc])
    have hrest : '\x00' ∉ rest := fun hr => h (List.mem_cons_of_mem _ hr)
    have ih2 := ih hrest
    simp only [doubleQuotes] at ih2 ⊢
    by_cases hq : c = '"'
    · simp [stream_csv_loop, hc, hq, ih2]
    · simp [stream_csv_loop, hc, hq, ih2]

/-! ## The claims -/

/-- C1: for every buffer `[b, e)`, the contents of the non-EOF tokens returned by
`n` successive `nextToken()` calls after `tokenize(b, e)` are, in order, the first
`n` reference lines of the buffer (all of them as soon as `n` reaches their
number), where the reference lines are the pieces of the buffer split at `\r\n`,
lone `\r` and lone `\n`, a final empty piece not being emitted. -/
theorem nextToken_contents_eq_referenceLines (src : Source) (check : Nat → Bool)
    (t : TokenizerLine) (b e p n : Nat) (h : b ≤ e) :
    ∃ toks t1, nextTokens src check n (t.tokenize b e) p = some (toks, t1, p) ∧
      (toks.filter (fun k => !k.isEOF)).map (Token.content src) =
        (referenceLines (bytes src b e)).take n := by
  obtain ⟨sp, hsp, hrun⟩ := tokenize_run src check t b e p h
  obtain ⟨t1, hn, _⟩ := hrun n
  refine ⟨expected sp n, t1, hn, ?_⟩
  rw [expected_fields, ← (lines_reference src e b sp hsp).1, ← List.map_take,
    ← List.map_take, List.map_map]
  rfl

/-- Witness of C1: the buffer `a\r\nb\nc\rd` yields exactly `a`, `b`, `c`, `d`. -/
theorem nextToken_contents_eq_referenceLines_witness :
    (0 : Nat) ≤ 8 ∧
    ∃ toks t1, nextTokens (sourceAt 0 "a\r\nb\nc\rd".toList) (fun _ => false) 6
        (TokenizerLine.tokenize ⟨0, 0, 0, false, 0⟩ 0 8) 0 = some (toks, t1, 0) ∧
      (toks.filter (fun k => !k.isEOF)).map
          (Token.content (sourceAt 0 "a\r\nb\nc\rd".toList)) =
        ["a".toList, "b".toList, "c".toList, "d".toList] := by
  refine ⟨by decide, ?_⟩
  have h := nextToken_contents_eq_referenceLines (sourceAt 0 "a\r\nb\nc\rd".toList)
    (fun _ => false) ⟨0, 0, 0, false, 0⟩ 0 8 0 6 (by decide)
  have hr : (referenceLines (bytes (sourceAt 0 "a\r\nb\nc\rd".toList) 0 8)).take 6 =
      ["a".toList, "b".toList, "c".toList, "d".toList] := by decide
  rw [hr] at h
  exact h

/-- C2 as stated fails on the empty buffer: it has `k = 0` terminators and does not
end in a terminator, so the claim asks for `k + 1 = 1` non-EOF token before the EOF
token, but the first call already returns EOF. -/
theorem token_count_empty_buffer_counterexample :
    ¬ ∃ toks t1 p1,
      nextTokens (sourceAt 0 []) (fun _ => false)
          (countTerminators (bytes (sourceAt 0 []) 0 0) +
            (if endsInTerminator (bytes (sourceAt 0 []) 0 0) = true then 0 else 1) + 1)
          (TokenizerLine.tokenize ⟨0, 0, 0, false, 0⟩ 0 0) 0 = some (toks, t1, p1) ∧
        (∀ k ∈ toks.take (countTerminators (bytes (sourceAt 0 []) 0 0) +
            (if endsInTerminator (bytes (sourceAt 0 []) 0 0) = true then 0 else 1)),
          k.isEOF = false) ∧
        toks.drop (countTerminators (bytes (sourceAt 0 []) 0 0) +
            (if endsInTerminator (bytes (sourceAt 0 []) 0 0) = true then 0 else 1)) =
          [.eof 0 0] := by
  rintro ⟨toks, t1, p1, h1, h2, _⟩
  have hm : countTerminators (bytes (sourceAt 0 []) 0 0) +
      (if endsInTerminator (bytes (sourceAt 0 []) 0 0) = true then 0 else 1) = 1 := by decide
  rw [hm] at h1 h2
  have hrun : nextTokens (sourceAt 0 []) (fun _ => false) (1 + 1)
      (TokenizerLine.tokenize ⟨0, 0, 0, false, 0⟩ 0 0) 0 =
      some ([.eof 0 0, .eof 0 0], ⟨0, 0, 0, false, 0⟩, 0) := by decide
  rw [hrun] at h1
  simp only [Option.some.injEq, Prod.mk.injEq] at h1
  have h3 := h2 (.eof 0 0) (by rw [← h1.1]; simp)
  simp [Token.isEOF] at h3

/-- C2, amended: for every non-empty buffer `[b, e)` holding `k` line terminators
(`\r\n` counted as one), successive `nextToken()` calls after `tokenize(b, e)` return
exactly `k + 1` non-EOF tokens if the buffer does not end in a terminator and exactly
`k` if it does, then an EOF token, and every later call returns the same EOF token
of line 0. -/
theorem token_count_nonempty_buffer (src : Source) (check : Nat → Bool)
    (t : TokenizerLine) (b e p n : Nat) (h : b < e) :
    ∃ toks t1,
      nextTokens src check
          (countTerminators (bytes src b e) +
            (if endsInTerminator (bytes src b e) = true then 0 else 1) + 1 + n)
          (t.tokenize b e) p = some (toks, t1, p) ∧
        (∀ k ∈ toks.take (countTerminators (bytes src b e) +
            (if endsInTerminator (bytes src b e) = true then 0 else 1)),
          k.isEOF = false) ∧
        toks.drop (countTerminators (bytes src b e) +
            (if endsInTerminator (bytes src b e) = true then 0 else 1)) =
          List.replicate (1 + n) (.eof 0 0) := by
  obtain ⟨sp, hsp, hrun⟩ := tokenize_run src check t b e p (le_of_lt h)
  have hlen := (lines_reference src e b sp hsp).2
  have hne := bytes_ne_nil src b e h
  simp only [hne, false_or] at hlen
  rw [← hlen]
  obtain ⟨t1, hn, _⟩ := hrun (sp.length + 1 + n)
  refine ⟨_, t1, hn, ?_, ?_⟩
  · intro k hk
    rw [expected_past, List.take_left' (by simp)] at hk
    simp only [List.mem_map] at hk
    obtain ⟨r, _, hr⟩ := hk
    rw [← hr]; rfl
  · rw [expected_past, List.drop_left' (by simp)]

/-- Witness of C2, amended: the buffer `a\nb` (one terminator, unterminated last
line) gives two non-EOF tokens and then EOF tokens. -/
theorem token_count_nonempty_buffer_witness :
    (0 : Nat) < 3 ∧
    ∃ toks t1,
      nextTokens (sourceAt 0 "a\nb".toList) (fun _ => false)
          (countTerminators (bytes (sourceAt 0 "a\nb".toList) 0 3) +
            (if endsInTerminator (bytes (sourceAt 0 "a\nb".toList) 0 3) = true
              then 0 else 1) + 1 + 2)
          (TokenizerLine.tokenize ⟨0, 0, 0, false, 0⟩ 0 3) 0 = some (toks, t1, 0) ∧
        (∀ k ∈ toks.take (countTerminators (bytes (sourceAt 0 "a\nb".toList) 0 3) +
            (if endsInTerminator (bytes (sourceAt 0 "a\nb".toList) 0 3) = true
              then 0 else 1)),
          k.isEOF = false) ∧
        toks.drop (countTerminators (bytes (sourceAt 0 "a\nb".toList) 0 3) +
            (if endsInTerminator (bytes (sourceAt 0 "a\nb".toList) 0 3) = true
              then 0 else 1)) =
          List.replicate (1 + 2) (.eof 0 0) :=
  ⟨by decide, token_count_nonempty_buffer (sourceAt 0 "a\nb".toList) (fun _ => false)
    ⟨0, 0, 0, false, 0⟩ 0 3 0 2 (by decide)⟩

/-- C3: after `tokenize(b, e)`, every non-EOF token returned by `nextToken()` has a
range free of `\r` and `\n`, the first token begins at `b`, and a token that follows
a non-EOF token begins right after the full terminator that ended it: the previous
token ends at a terminator byte inside the buffer, and the next begins two bytes
further for a `\r\n` pair and one byte further for a lone `\r` or `\n`. -/
theorem nextToken_ranges_exclude_terminators (src : Source) (check : Nat → Bool)
    (t : TokenizerLine) (b e p n : Nat) (h : b ≤ e) :
    ∃ toks t1, nextTokens src check n (t.tokenize b e) p = some (toks, t1, p) ∧
      (∀ (tb te : Nat) (l x : Int), Token.field tb te l x ∈ toks →
        ∀ a, tb ≤ a → a < te → src a ≠ '\r' ∧ src a ≠ '\n') ∧
      (∀ (tb te : Nat) (l x : Int), toks[0]? = some (Token.field tb te l x) → tb = b) ∧
      (∀ (i tb te : Nat) (l x : Int) (tb2 te2 : Nat) (l2 x2 : Int),
        toks[i]? = some (Token.field tb te l x) →
        toks[i + 1]? = some (Token.field tb2 te2 l2 x2) →
        te < e ∧ (src te = '\r' ∨ src te = '\n') ∧
        tb2 = te + (if src te = '\r' ∧ te + 1 < e ∧ src (te + 1) = '\n' then 2 else 1)) := by
  obtain ⟨sp, hsp, hrun⟩ := tokenize_run src check t b e p h
  obtain ⟨t1, hn, _⟩ := hrun n
  refine ⟨expected sp n, t1, hn, ?_, ?_, ?_⟩
  · intro tb te l x hmem a h1 h2
    rcases expected_mem sp n _ hmem with h3 | ⟨r, hr, h3⟩
    · exact absurd h3 (by simp)
    · simp only [fieldOf, Token.field.injEq] at h3
      have h31 : (tb : Nat) = r.1 := h3.1
      have h32 : (te : Nat) = r.2 := h3.2.1
      have h4 := (lines_ranges src e b sp hsp r hr).2.2.2 a (by omega) (by omega)
      exact ⟨fun hc => h4 (Or.inl hc), fun hc => h4 (Or.inr hc)⟩
  · intro tb te l x h0
    have h1 := (expected_getElem sp n 0 tb te l x h0).1
    exact lines_head src e b sp hsp (tb, te) (by rw [List.head?_eq_getElem?]; exact h1)
  · intro i tb te l x tb2 te2 l2 x2 h1 h2
    have h3 := (expected_getElem sp n i tb te l x h1).1
    have h4 := (expected_getElem sp n (i + 1) tb2 te2 l2 x2 h2).1
    exact lines_next src e b sp hsp i (tb, te) (tb2, te2) h3 h4

/-- Witness of C3 on the buffer `a\r\nb\nc\rd`. -/
theorem nextToken_ranges_exclude_terminators_witness :
    (0 : Nat) ≤ 8 ∧
    ∃ toks t1, nextTokens (sourceAt 0 "a\r\nb\nc\rd".toList) (fun _ => false) 6
        (TokenizerLine.tokenize ⟨0, 0, 0, false, 0⟩ 0 8) 0 = some (toks, t1, 0) ∧
      (∀ (tb te : Nat) (l x : Int), Token.field tb te l x ∈ toks →
        ∀ a, tb ≤ a → a < te → sourceAt 0 "a\r\nb\nc\rd".toList a ≠ '\r' ∧
          sourceAt 0 "a\r\nb\nc\rd".toList a ≠ '\n') ∧
      (∀ (tb te : Nat) (l x : Int), toks[0]? = some (Token.field tb te l x) → tb = 0) ∧
      (∀ (i tb te : Nat) (l x : Int) (tb2 te2 : Nat) (l2 x2 : Int),
        toks[i]? = some (Token.field tb te l x) →
        toks[i + 1]? = some (Token.field tb2 te2 l2 x2) →
        te < 8 ∧ (sourceAt 0 "a\r\nb\nc\rd".toList te = '\r' ∨
          sourceAt 0 "a\r\nb\nc\rd".toList te = '\n') ∧
        tb2 = te + (if sourceAt 0 "a\r\nb\nc\rd".toList te = '\r' ∧ te + 1 < 8 ∧
          sourceAt 0 "a\r\nb\nc\rd".toList (te + 1) = '\n' then 2 else 1)) :=
  ⟨by decide, nextToken_ranges_exclude_terminators (sourceAt 0 "a\r\nb\nc\rd".toList)
    (fun _ => false) ⟨0, 0, 0, false, 0⟩ 0 8 0 6 (by decide)⟩

/-- C4: once a `nextToken()` call has returned an EOF token, every subsequent call
returns that same EOF token (same line number) and leaves the tokenizer object
(cursor, end bound, line counter, more-tokens flag) unchanged. -/
theorem eof_is_terminal (src : Source) (check : Nat → Bool) (t t1 : TokenizerLine)
    (p p1 : Nat) (tok : Token)
    (h : t.nextToken src check p = some (.returned tok t1 p1))
    (heof : tok.isEOF = true) (n : Nat) :
    nextTokens src check n t1 p1 = some (List.replicate n tok, t1, p1) := by
  have key : t1.moreTokens_ = false ∧ tok = .eof t1.line_ 0 := by
    unfold TokenizerLine.nextToken at h
    by_cases hm : t.moreTokens_ = true
    · simp only [hm, Bool.not_true, Bool.false_eq_true, if_false] at h
      cases hs : scanLoop src check t.end_ t.line_ (t.end_ - t.cur_) t.cur_ p with
      | none => simp [hs] at h
      | some ex =>
        cases ex with
        | thrown c q => simp [hs] at h
        | ret te c q =>
          simp only [hs, Option.some.injEq, Outcome.returned.injEq] at h
          rw [← h.1] at heof
          simp [Token.isEOF] at heof
        | done q =>
          simp only [hs] at h
          by_cases hc : t.cur_ = t.end_
          · simp only [hc, if_true, Option.some.injEq, Outcome.returned.injEq] at h
            obtain ⟨h1, h2, _⟩ := h
            rw [← h1, ← h2]
            exact ⟨rfl, rfl⟩
          · simp only [hc, if_false, Option.some.injEq, Outcome.returned.injEq] at h
            rw [← h.1] at heof
            simp [Token.isEOF] at heof
    · have hm2 : t.moreTokens_ = false := by simpa using hm
      simp only [hm2, Bool.not_false, if_true, Option.some.injEq,
        Outcome.returned.injEq] at h
      obtain ⟨h1, h2, _⟩ := h
      rw [← h1, ← h2]
      exact ⟨hm2, rfl⟩
  rw [key.2]
  exact nextTokens_exhausted src check t1 p1 key.1 n

/-- Witness of C4: at the end of the buffer `a\n` the call returns EOF, and so do
the next three calls, the object staying as it is. -/
theorem eof_is_terminal_witness :
    TokenizerLine.nextToken (sourceAt 0 "a\n".toList) (fun _ => false)
        ⟨0, 2, 2, true, 0⟩ 0 = some (.returned (.eof 0 0) ⟨0, 2, 2, false, 0⟩ 0) ∧
    (Token.eof 0 0).isEOF = true ∧
    nextTokens (sourceAt 0 "a\n".toList) (fun _ => false) 3 ⟨0, 2, 2, false, 0⟩ 0 =
      some (List.replicate 3 (.eof 0 0), ⟨0, 2, 2, false, 0⟩, 0) :=
  ⟨by decide, by decide,
    eof_is_terminal (sourceAt 0 "a\n".toList) (fun _ => false) ⟨0, 2, 2, true, 0⟩
      ⟨0, 2, 2, false, 0⟩ 0 0 (.eof 0 0) (by decide) (by decide) 3⟩

/-- C5: for every position `pos` and every prior tokenizer object, `tokenize(pos, pos)`
followed by `nextToken()` returns an EOF token of line 0 on the very first call. -/
theorem tokenize_empty_range_eof (src : Source) (check : Nat → Bool) (t : TokenizerLine)
    (p pos : Nat) :
    (t.tokenize pos pos).nextToken src check p =
      some (.returned (.eof 0 0) ⟨t.begin_, pos, pos, false, 0⟩ p) := by
  simp [TokenizerLine.nextToken, TokenizerLine.tokenize, scanLoop]

/-- C6, the code at a failing input: on an object whose never-assigned `begin_` holds
0, after `tokenize(1000, 1004)` over the four bytes `a\nb\n`, `progress()` reports
1000 bytes consumed right after `tokenize` (the claim says 0), and 1004 after
`nextToken()` has reported EOF (the claim says the length 4). -/
theorem progress_with_unassigned_begin :
    ((TokenizerLine.tokenize ⟨0, 0, 0, false, 0⟩ 1000 1004).progress).bytes = 1000 ∧
    ∃ t1, nextTokens (sourceAt 1000 "a\nb\n".toList) (fun _ => false) 3
        (TokenizerLine.tokenize ⟨0, 0, 0, false, 0⟩ 1000 1004) 0 =
        some ([.field 1000 1001 0 0, .field 1002 1003 0 0, .eof 0 0], t1, 0) ∧
      t1.progress.bytes = 1004 :=
  ⟨by decide, ⟨0, 1004, 1004, false, 0⟩, by decide, by decide⟩

/-- C7, the code at a failing input: on an object whose never-assigned `begin_` holds
1002, after `tokenize(1000, 1004)` over the bytes `a\nb\n`, the byte count of
`progress()` is `2 ^ 64 - 2` before the first `nextToken()` call and 0 after it: it
decreases. -/
theorem progress_bytes_decrease :
    ((TokenizerLine.tokenize ⟨1002, 0, 0, false, 0⟩ 1000 1004).progress).bytes =
      2 ^ 64 - 2 ∧
    ∃ t1, TokenizerLine.nextToken (sourceAt 1000 "a\nb\n".toList) (fun _ => false)
        (TokenizerLine.tokenize ⟨1002, 0, 0, false, 0⟩ 1000 1004) 0 =
        some (.returned (.field 1000 1001 0 0) t1 0) ∧
      t1.progress.bytes = 0 :=
  ⟨by decide, ⟨1002, 1002, 1004, true, 0⟩, by decide, by decide⟩

/-- C8, the code at a failing input: a buffer of 100000 bytes `\n` holds 100000
lines; tokenizing it to exhaustion, with an interrupt check that signals at every
poll, returns the 100000 line tokens and then EOF, no call is left by the interrupt
exception, and the number of polls is 0 at the end as at the start. -/
theorem interrupt_check_never_polled :
    ∃ toks t1, nextTokens (fun _ => '\n') (fun _ => true) 100001
        (TokenizerLine.tokenize ⟨0, 0, 0, false, 0⟩ 0 100000) 0 = some (toks, t1, 0) ∧
      (toks.filter (fun k => !k.isEOF)).length = 100000 ∧
      toks.getLast? = some (.eof 0 0) := by
  obtain ⟨sp, hsp, hrun⟩ := tokenize_run (fun _ => '\n') (fun _ => true)
    ⟨0, 0, 0, false, 0⟩ 0 100000 0 (Nat.zero_le _)
  have hlen : sp.length = 100000 := lines_all_newlines 100000 0 sp hsp
  obtain ⟨t1, hn, _⟩ := hrun 100001
  refine ⟨expected sp 100001, t1, hn, ?_, ?_⟩
  · rw [expected_fields, List.length_take, List.length_map, hlen]
    rfl
  · have h1 : (100001 : Nat) = sp.length + 1 + 0 := by omega
    rw [h1, expected_past]
    simp

/-- C9: after `tokenize(b, e)`, every token returned lies in the buffer, that is
`b ≤ token.begin ≤ token.end ≤ e` for a FIELD token, an EOF token having a
zero-length range; the first token has line number 0 and the line numbers of
successive tokens never decrease. -/
theorem token_ranges_in_buffer_and_lines_monotone (src : Source) (check : Nat → Bool)
    (t : TokenizerLine) (b e p n : Nat) (h : b ≤ e) :
    ∃ toks t1, nextTokens src check n (t.tokenize b e) p = some (toks, t1, p) ∧
      (∀ k ∈ toks, match k with
        | .field tb te _ _ => b ≤ tb ∧ tb ≤ te ∧ te ≤ e
        | .eof _ _ => k.size = 0) ∧
      (∀ k, toks[0]? = some k → k.line = 0) ∧
      (∀ (i j : Nat) (x y : Token), i ≤ j → toks[i]? = some x → toks[j]? = some y →
        x.line ≤ y.line) := by
  obtain ⟨sp, hsp, hrun⟩ := tokenize_run src check t b e p h
  obtain ⟨t1, hn, _⟩ := hrun n
  have hline : ∀ k ∈ expected sp n, k.line = 0 := by
    intro k hk
    rcases expected_mem sp n k hk with h1 | ⟨r, _, h1⟩
    · rw [h1]; rfl
    · rw [h1]; rfl
  refine ⟨expected sp n, t1, hn, ?_, ?_, ?_⟩
  · intro k hk
    rcases expected_mem sp n k hk with h1 | ⟨r, hr, h1⟩
    · rw [h1]; rfl
    · rw [h1]
      obtain ⟨i1, i2, i3, _⟩ := lines_ranges src e b sp hsp r hr
      exact ⟨i1, i2, i3⟩
  · intro k hk
    exact hline k (List.getElem?_mem hk)
  · intro i j x y _ hx hy
    rw [hline x (List.getElem?_mem hx), hline y (List.getElem?_mem hy)]

/-- Witness of C9 on the buffer `a\r\nb\nc\rd` placed at address 100. -/
theorem token_ranges_in_buffer_and_lines_monotone_witness :
    (100 : Nat) ≤ 108 ∧
    ∃ toks t1, nextTokens (sourceAt 100 "a\r\nb\nc\rd".toList) (fun _ => false) 6
        (TokenizerLine.tokenize ⟨0, 0, 0, false, 0⟩ 100 108) 0 = some (toks, t1, 0) ∧
      (∀ k ∈ toks, match k with
        | .field tb te _ _ => 100 ≤ tb ∧ tb ≤ te ∧ te ≤ 108
        | .eof _ _ => k.size = 0) ∧
      (∀ k, toks[0]? = some k → k.line = 0) ∧
      (∀ (i j : Nat) (x y : Token), i ≤ j → toks[i]? = some x → toks[j]? = some y →
        x.line ≤ y.line) :=
  ⟨by decide, token_ranges_in_buffer_and_lines_monotone
    (sourceAt 100 "a\r\nb\nc\rd".toList) (fun _ => false) ⟨0, 0, 0, false, 0⟩
    100 108 0 6 (by decide)⟩

/-- C10: for every string `s` without NUL bytes, the string encoder appends to the
output a double quote, then the bytes of `s` in order with each double quote
replaced by two double quotes and every other byte copied unchanged, then a double
quote. -/
theorem stream_csv_string_quotes (output : Stream) (s : List Char) (h : '\x00' ∉ s) :
    stream_csv_string output s = output ++ ['"'] ++ doubleQuotes s ++ ['"'] := by
  simp only [stream_csv_string]
  rw [stream_csv_loop_eq s h]

/-- Witness of C10: `He said "hi"` encodes to `"He said ""hi"""`, and the empty
string encodes to `""`. -/
theorem stream_csv_string_quotes_witness :
    ('\x00' ∉ "He said \"hi\"".toList ∧
      stream_csv_string [] "He said \"hi\"".toList = "\"He said \"\"hi\"\"\"".toList) ∧
    ('\x00' ∉ "".toList ∧ stream_csv_string [] "".toList = "\"\"".toList) := by
  refine ⟨⟨by decide, ?_⟩, ⟨by decide, ?_⟩⟩
  · rw [stream_csv_string_quotes [] "He said \"hi\"".toList (by decide)]
    decide
  · rw [stream_csv_string_quotes [] "".toList (by decide)]
    decide

/-! ## Writers only append -/

theorem prepend_nil (r : Result) : r.prepend [] = r := by
  cases r <;> simp [Result.prepend]

theorem prepend_prepend (a b : Stream) (r : Result) :
    (r.prepend b).prepend a = r.prepend (a ++ b) := by
  cases r <;> simp [Result.prepend]

theorem prepend_output (a : Stream) (r : Result) :
    (r.prepend a).output = a ++ r.output := by
  cases r <;> simp [Result.prepend, Result.output]

theorem extends_ok_append (t : List Char) : Extends (fun out => .ok (out ++ t)) := by
  intro out; simp [Result.prepend]

theorem extends_andThen (f g : Stream → Result) (hf : Extends f) (hg : Extends g) :
    Extends (fun out => (f out).andThen g) := by
  intro out
  simp only []
  rw [hf out]
  cases hr : f [] with
  | ok o =>
    show g (out ++ o) = (g o).prepend out
    rw [hg (out ++ o), hg o, prepend_prepend]
  | stop o m => simp [Result.prepend, Result.andThen]
  | outOfBounds o => simp [Result.prepend, Result.andThen]

theorem extends_forLoop (body : Nat → Stream → Result) (hb : ∀ k, Extends (body k)) :
    ∀ count k, Extends (forLoop body count k) := by
  intro count
  induction count with
  | zero => intro k out; simp [forLoop, Result.prepend]
  | succ count ih =>
    intro k
    exact extends_andThen (body k) (forLoop body count (k + 1)) (hb k) (ih (k + 1))

theorem stream_csv_loop_append (s : List Char) :
    ∀ out : Stream, stream_csv_loop s out = out ++ stream_csv_loop s [] := by
  induction s with
  | nil => intro out; simp [stream_csv_loop]
  | cons c rest ih =>
    intro out
    by_cases hz : c = '\x00'
    · simp [stream_csv_loop, hz]
    · by_cases hq : c = '"'
      · simp only [stream_csv_loop, if_neg hz, if_pos hq]
        rw [ih (out ++ ['"', '"']), ih ([] ++ ['"', '"'])]
        simp
      · simp only [stream_csv_loop, if_neg hz, if_neg hq]
        rw [ih (out ++ [c]), ih ([] ++ [c])]
        simp

theorem stream_csv_string_append (out : Stream) (s : List Char) :
    stream_csv_string out s = out ++ stream_csv_string [] s := by
  simp only [stream_csv_string]
  rw [stream_csv_loop_append s (out ++ ['"']), stream_csv_loop_append s ([] ++ ['"'])]
  simp

theorem extends_stream_csv_RObject (fmt : Format) (x : RObject) (i : Nat) :
    Extends (fun out => stream_csv_RObject fmt out x i) := by
  intro out
  cases x with
  | LGLSXP v =>
    simp only [stream_csv_RObject]
    cases v[i]? with
    | none => simp [Result.prepend]
    | some value => simp only []; split_ifs <;> simp [Result.prepend]
  | INTSXP v =>
    simp only [stream_csv_RObject]
    cases v[i]? with
    | none => simp [Result.prepend]
    | some value => simp only []; split_ifs <;> simp [Result.prepend]
  | REALSXP v =>
    simp only [stream_csv_RObject]
    cases v[i]? with
    | none => simp [Result.prepend]
    | some value => simp only []; split_ifs <;> simp [Result.prepend]
  | STRSXP v =>
    simp only [stream_csv_RObject]
    cases v[i]? with
    | none => simp [Result.prepend]
    | some value =>
      cases value with
      | none => simp [Result.prepend]
      | some string =>
        simp only [Result.prepend]
        rw [stream_csv_string_append]
  | other ty n => simp [stream_csv_RObject, Result.prepend]

theorem stream_csv_RObject_eq (fmt : Format) (out : Stream) (x : RObject) (i : Nat) :
    stream_csv_RObject fmt out x i = (stream_csv_RObject fmt [] x i).prepend out :=
  extends_stream_csv_RObject fmt x i out

theorem extends_stream_csv_row (fmt : Format) (x : RList) (i : Nat) :
    Extends (fun out => stream_csv_row fmt out x i) := by
  unfold stream_csv_row
  refine extends_andThen _ _ (extends_forLoop _ (fun j => ?_) _ _)
    (extends_ok_append ['\n'])
  intro out
  cases x.cols[j]? with
  | none => simp [Result.prepend]
  | some col =>
    refine extends_andThen (fun out => stream_csv_RObject fmt out col i) _
      (extends_stream_csv_RObject fmt col i) ?_ out
    intro o
    split_ifs <;> simp [Result.prepend]

theorem extends_stream_csv_List (fmt : Format) (df : RList) (cn ap : Bool) :
    Extends (fun out => stream_csv_List fmt out df cn ap) := by
  unfold stream_csv_List
  by_cases hp : df.cols.length = 0
  · intro out; simp [hp, Result.prepend]
  · simp only [hp, if_false]
    have hrows : Extends (fun output =>
        match df.cols[0]? with
        | none => Result.outOfBounds output
        | some first_col =>
          forLoop (fun i output => stream_csv_row fmt output df i)
            (Rf_length first_col) 0 output) := by
      cases df.cols[0]? with
      | none => intro out; simp [Result.prepend]
      | some c => exact extends_forLoop _ (fun i => extends_stream_csv_row fmt df i) _ _
    cases cn with
    | false => exact extends_andThen (fun out => .ok out) _ (by intro o; simp [Result.prepend]) hrows
    | true =>
      simp only [if_true]
      refine extends_andThen _ _ ?_ hrows
      refine extends_andThen _ _ (extends_forLoop _ (fun j => ?_) _ _)
        (extends_ok_append ['\n'])
      refine extends_andThen (fun out => stream_csv_RObject fmt out (.STRSXP df.names) j) _
        (extends_stream_csv_RObject fmt _ j) ?_
      intro o
      split_ifs <;> simp [Result.prepend]

/-! ## Cells, rows and tables that are encoded without failure -/

/-- A cell of a supported column, inside the column, is written without failure. -/
theorem stream_csv_RObject_supported (fmt : Format) (out : Stream) (col : RObject)
    (i : Nat) (hs : supported col = true) (hi : i < Rf_length col) :
    stream_csv_RObject fmt out col i = .ok (out ++ cellText fmt col i) := by
  have h : ∃ t, stream_csv_RObject fmt [] col i = .ok t := by
    cases col with
    | LGLSXP v =>
      simp only [Rf_length] at hi
      simp only [stream_csv_RObject, List.getElem?_eq_getElem hi]
      split_ifs <;> exact ⟨_, rfl⟩
    | INTSXP v =>
      simp only [Rf_length] at hi
      simp only [stream_csv_RObject, List.getElem?_eq_getElem hi]
      split_ifs <;> exact ⟨_, rfl⟩
    | REALSXP v =>
      simp only [Rf_length] at hi
      simp only [stream_csv_RObject, List.getElem?_eq_getElem hi]
      split_ifs <;> exact ⟨_, rfl⟩
    | STRSXP v =>
      simp only [Rf_length] at hi
      simp only [stream_csv_RObject, List.getElem?_eq_getElem hi]
      cases v[i] <;> exact ⟨_, rfl⟩
    | other ty n => simp [supported] at hs
  obtain ⟨t, ht⟩ := h
  rw [stream_csv_RObject_eq, cellText, ht]
  rfl

/-- The cell of a character vector that holds the value `v`. -/
theorem stream_csv_RObject_string (fmt : Format) (out : Stream)
    (xs : List (Option (List Char))) (i : Nat) (v : Option (List Char))
    (h : xs[i]? = some v) :
    stream_csv_RObject fmt out (.STRSXP xs) i = .ok (out ++ cellText fmt (.STRSXP [v]) 0) := by
  rw [stream_csv_RObject_eq fmt out]
  simp only [cellText, stream_csv_RObject, h]
  cases v <;> simp [Result.prepend, Result.output]

/-- The text of a String cell is the reference text of its value. -/
theorem cellText_string (fmt : Format) (v : Option (List Char)) (h : nulFree v) :
    cellText fmt (.STRSXP [v]) 0 = stringText v := by
  cases v with
  | none => simp [cellText, stream_csv_RObject, Result.output, stringText]
  | some s =>
    have hs : '\x00' ∉ s := h
    simp only [cellText, stream_csv_RObject, List.getElem?_cons_zero, Result.output,
      stringText, stream_csv_string]
    rw [stream_csv_loop_eq s hs]
    simp

/-- A loop that writes the texts of the elements of `l` from index `s` on, each but
the last followed by a comma. -/
theorem forLoop_comma {α : Type} (l : List α) (f : α → List Char)
    (cell : Nat → Stream → Result) (p : Nat) (hp : p = l.length)
    (hcell : ∀ j a, l[j]? = some a → ∀ out, cell j out = .ok (out ++ f a)) :
    ∀ (c s : Nat) (out : Stream), s + c = p →
      forLoop (fun j output => (cell j output).andThen fun output =>
          .ok (if j ≠ p - 1 then output ++ [','] else output)) c s out =
        .ok (out ++ joinComma ((l.drop s).map f)) := by
  intro c
  induction c with
  | zero =>
    intro s out hs
    have h1 : l.drop s = [] := List.drop_eq_nil_of_le (by omega)
    simp [forLoop, h1, joinComma]
  | succ c ih =>
    intro s out hs
    have hlt : s < l.length := by omega
    have hd : l.drop s = l[s] :: l.drop (s + 1) := List.drop_eq_getElem_cons hlt
    have hc := hcell s l[s] (List.getElem?_eq_getElem hlt) out
    have step : forLoop (fun j output => (cell j output).andThen fun output =>
          .ok (if j ≠ p - 1 then output ++ [','] else output)) (c + 1) s out =
        forLoop (fun j output => (cell j output).andThen fun output =>
          .ok (if j ≠ p - 1 then output ++ [','] else output)) c (s + 1)
          (if s ≠ p - 1 then out ++ f l[s] ++ [','] else out ++ f l[s]) := by
      show ((cell s out).andThen _).andThen _ = _
      rw [hc]
      rfl
    by_cases hlast : s = p - 1
    · have h1 : l.drop (s + 1) = [] := List.drop_eq_nil_of_le (by omega)
      have hif : (if s ≠ p - 1 then out ++ f l[s] ++ [','] else out ++ f l[s]) =
          out ++ f l[s] := if_neg (fun h => h hlast)
      rw [step, hif, ih (s + 1) _ (by omega), hd, h1]
      simp only [List.map_cons, List.map_nil, joinComma, List.append_nil]
    · have hlt2 : s + 1 < l.length := by omega
      have hd2 : l.drop (s + 1) = l[s + 1] :: l.drop (s + 1 + 1) :=
        List.drop_eq_getElem_cons hlt2
      have hif : (if s ≠ p - 1 then out ++ f l[s] ++ [','] else out ++ f l[s]) =
          out ++ f l[s] ++ [','] := if_pos hlast
      rw [step, hif, ih (s + 1) _ (by omega), hd, hd2]
      simp only [List.map_cons, joinComma, List.append_assoc]

/-- A loop whose every pass appends its text. -/
theorem forLoop_texts (body : Nat → Stream → Result) (t : Nat → List Char) :
    ∀ (c s : Nat) (out : Stream),
      (∀ k, s ≤ k → k < s + c → ∀ o, body k o = .ok (o ++ t k)) →
      forLoop body c s out = .ok (out ++ (List.range' s c).flatMap t) := by
  intro c
  induction c with
  | zero => intro s out _; simp [forLoop]
  | succ c ih =>
    intro s out h
    simp only [forLoop, h s (le_refl _) (by omega) out, Result.andThen]
    rw [ih (s + 1) _ (fun k h1 h2 o => h k (by omega) (by omega) o), List.range'_succ]
    simp

/-- The row `i` of supported columns that all reach index `i`. -/
theorem stream_csv_row_ok (fmt : Format) (out : Stream) (x : RList) (i : Nat)
    (h : ∀ col ∈ x.cols, supported col = true ∧ i < Rf_length col) :
    stream_csv_row fmt out x i = .ok (out ++ rowText fmt x.cols i) := by
  have hbody : (fun (j : Nat) (output : Stream) =>
      match x.cols[j]? with
      | none => Result.outOfBounds output
      | some col =>
        (stream_csv_RObject fmt output col i).andThen fun output =>
          .ok (if j ≠ x.cols.length - 1 then output ++ [','] else output)) =
      (fun j output =>
        (match x.cols[j]? with
          | none => Result.outOfBounds output
          | some col => stream_csv_RObject fmt output col i).andThen fun output =>
          .ok (if j ≠ x.cols.length - 1 then output ++ [','] else output)) := by
    funext j output
    cases x.cols[j]? <;> rfl
  have hloop : forLoop (fun (j : Nat) (output : Stream) =>
      match x.cols[j]? with
      | none => Result.outOfBounds output
      | some col =>
        (stream_csv_RObject fmt output col i).andThen fun output =>
          .ok (if j ≠ x.cols.length - 1 then output ++ [','] else output))
      x.cols.length 0 out =
      .ok (out ++ joinComma (x.cols.map (fun col => cellText fmt col i))) := by
    rw [hbody]
    have h1 := forLoop_comma x.cols (fun col => cellText fmt col i)
      (fun j output =>
        match x.cols[j]? with
        | none => Result.outOfBounds output
        | some col => stream_csv_RObject fmt output col i)
      x.cols.length rfl
      (by
        intro j a ha o
        simp only [ha]
        have hm := h a (List.getElem?_mem ha)
        exact stream_csv_RObject_supported fmt o a i hm.1 hm.2)
      x.cols.length 0 out (by omega)
    rw [List.drop_zero] at h1
    exact h1
  show (forLoop _ x.cols.length 0 out).andThen _ = _
  rw [hloop]
  simp [Result.andThen, rowText]

/-- The loop that writes the names of the header. -/
theorem header_loop_ok (fmt : Format) (out : Stream) (names : List (Option (List Char)))
    (p : Nat) (hp : p = names.length) :
    forLoop (fun j output =>
        (stream_csv_RObject fmt output (.STRSXP names) j).andThen fun output =>
          .ok (if j ≠ p - 1 then output ++ [','] else output)) p 0 out =
      .ok (out ++ joinComma (names.map (fun v => cellText fmt (.STRSXP [v]) 0))) := by
  have hloop := forLoop_comma names (fun v => cellText fmt (.STRSXP [v]) 0)
    (fun j output => stream_csv_RObject fmt output (.STRSXP names) j) p hp
    (fun j a ha o => stream_csv_RObject_string fmt o names j a ha) p 0 out (by omega)
  rw [hloop, List.drop_zero]

/-- The header and the table after it. -/
theorem stream_csv_List_header (fmt : Format) (out : Stream) (df : RList) (ap : Bool)
    (hp : df.cols ≠ []) (hn : df.names.length = df.cols.length) :
    stream_csv_List fmt out df true ap =
      stream_csv_List fmt (out ++ headerText fmt df.names) df false ap := by
  have hp0 : df.cols.length ≠ 0 := fun h => hp (List.length_eq_zero.mp h)
  simp only [stream_csv_List, if_neg hp0, if_true, Bool.false_eq_true, if_false]
  rw [header_loop_ok fmt out df.names df.cols.length hn.symm]
  have happ : out ++ headerText fmt df.names =
      (out ++ joinComma (df.names.map (fun v => cellText fmt (.STRSXP [v]) 0))) ++ ['\n'] := by
    simp [headerText]
  rw [happ]
  rfl

/-- The table of supported columns of one length `n`, header left out. -/
theorem stream_csv_List_rows (fmt : Format) (out : Stream) (df : RList) (ap : Bool)
    (n : Nat) (hp : df.cols ≠ [])
    (hcols : ∀ col ∈ df.cols, supported col = true ∧ Rf_length col = n) :
    stream_csv_List fmt out df false ap =
      .ok (out ++ (List.range n).flatMap (rowText fmt df.cols)) := by
  have hp0 : df.cols.length ≠ 0 := fun h => hp (List.length_eq_zero.mp h)
  obtain ⟨c, rest, hc⟩ := List.exists_cons_of_ne_nil hp
  have h0 : df.cols[0]? = some c := by rw [hc]; simp
  have hn : Rf_length c = n := (hcols c (by rw [hc]; exact List.mem_cons_self _ _)).2
  have hrows := forLoop_texts (fun i output => stream_csv_row fmt output df i)
    (rowText fmt df.cols) n 0 out
    (by
      intro k _ hk o
      exact stream_csv_row_ok fmt o df k
        (fun col hcol => ⟨(hcols col hcol).1, by rw [(hcols col hcol).2]; omega⟩))
  simp only [stream_csv_List, if_neg hp0, Bool.false_eq_true, if_false, h0]
  show forLoop _ (Rf_length c) 0 out = _
  rw [hn, hrows, List.range_eq_range']

/-- The table of supported columns of one length `n`: the header, if asked for, then
the rows in order. -/
theorem stream_csv_List_ok (fmt : Format) (out : Stream) (df : RList) (cn ap : Bool)
    (n : Nat) (hp : df.cols ≠ [])
    (hcols : ∀ col ∈ df.cols, supported col = true ∧ Rf_length col = n)
    (hn : cn = true → df.names.length = df.cols.length) :
    stream_csv_List fmt out df cn ap =
      .ok (out ++ (if cn = true then headerText fmt df.names else []) ++
        (List.range n).flatMap (rowText fmt df.cols)) := by
  cases cn with
  | false => simp [stream_csv_List_rows fmt out df ap n hp hcols]
  | true =>
    rw [stream_csv_List_header fmt out df ap hp (hn rfl),
      stream_csv_List_rows fmt _ df ap n hp hcols]
    simp

/-- The table encoder writes after what the stream holds the text it writes to an
empty stream. -/
theorem stream_csv_List_eq (fmt : Format) (out : Stream) (df : RList) (cn ap : Bool) :
    stream_csv_List fmt out df cn ap = (stream_csv_List fmt [] df cn ap).prepend out :=
  extends_stream_csv_List fmt df cn ap out

/-! ## Decoding a String cell -/

theorem unquote_doubleQuotes (s : List Char) : unquote (doubleQuotes s ++ ['"']) = s := by
  induction s with
  | nil => simp [doubleQuotes, unquote]
  | cons c rest ih =>
    have hcons : doubleQuotes (c :: rest) =
        (if c = '"' then ['"', '"'] else [c]) ++ doubleQuotes rest := by
      simp [doubleQuotes]
    rw [hcons]
    by_cases hq : c = '"'
    · rw [if_pos hq, hq]
      show unquote ('"' :: '"' :: (doubleQuotes rest ++ ['"'])) = '"' :: rest
      simp [unquote, ih]
    · rw [if_neg hq]
      show unquote (c :: (doubleQuotes rest ++ ['"'])) = c :: rest
      cases hd : doubleQuotes rest ++ ['"'] with
      | nil => simp at hd
      | cons d more =>
        simp only [unquote, if_neg hq]
        rw [← hd, ih]

theorem decodeString_stringText (v : Option (List Char)) :
    decodeString (stringText v) = v := by
  cases v with
  | none => decide
  | some s =>
    show decodeString ('"' :: (doubleQuotes s ++ ['"'])) = some s
    simp [decodeString, unquote_doubleQuotes]

theorem stringText_eq_NA (v : Option (List Char)) :
    stringText v = "NA".toList ↔ v = none := by
  cases v with
  | none => simp [stringText]
  | some s =>
    simp only [stringText, reduceCtorEq, iff_false]
    intro h
    have h2 := congrArg List.head? h
    simp at h2

/-! ## Newlines of a table text, and tables with an unsupported column -/

theorem not_mem_joinComma (ts : List (List Char)) (h : ∀ t ∈ ts, '\n' ∉ t) :
    '\n' ∉ joinComma ts := by
  induction ts with
  | nil => simp [joinComma]
  | cons a rest ih =>
    have ha : '\n' ∉ a := h a (List.mem_cons_self _ _)
    have hrest := ih (fun t ht => h t (List.mem_cons_of_mem _ ht))
    cases rest with
    | nil => simpa [joinComma] using ha
    | cons b more =>
      simp only [joinComma, List.mem_append, List.mem_singleton, not_or]
      exact ⟨⟨ha, by decide⟩, hrest⟩

theorem count_newline_rows (f : Nat → List Char) (n : Nat)
    (h : ∀ i, i < n → (f i).count '\n' = 1) :
    ((List.range n).flatMap f).count '\n' = n := by
  induction n with
  | zero => simp
  | succ n ih =>
    rw [List.range_succ, List.flatMap_append, List.count_append,
      ih (fun i hi => h i (by omega))]
    simp [h n (by omega)]

/-- The loop of a row over columns that all reach index `i`, one of them from `s` on
being unsupported, is left by `Rcpp::stop` with the message of an unsupported
column. -/
theorem row_loop_stop (fmt : Format) (x : RList) (i : Nat)
    (hlen : ∀ col ∈ x.cols, i < Rf_length col) :
    ∀ (c s : Nat) (out : Stream), s + c = x.cols.length →
      (∃ k col, s ≤ k ∧ x.cols[k]? = some col ∧ supported col = false) →
      ∃ o ty len, RObject.other ty len ∈ x.cols ∧
        forLoop (fun j output =>
          match x.cols[j]? with
          | none => Result.outOfBounds output
          | some col =>
            (stream_csv_RObject fmt output col i).andThen fun output =>
              .ok (if j ≠ x.cols.length - 1 then output ++ [','] else output))
          c s out = .stop o (stopMessage ty) := by
  intro c
  induction c with
  | zero =>
    intro s out hs ⟨k, col, hk, hcol, _⟩
    have hlt : k < x.cols.length := (List.getElem?_eq_some_iff.mp hcol).1
    omega
  | succ c ih =>
    intro s out hs ⟨k, col, hk, hcol, hun⟩
    have hlt : s < x.cols.length := by omega
    have hget : x.cols[s]? = some x.cols[s] := List.getElem?_eq_getElem hlt
    have hmem : x.cols[s] ∈ x.cols := List.getElem?_mem hget
    cases hsup : supported x.cols[s] with
    | true =>
      have hcell := stream_csv_RObject_supported fmt out x.cols[s] i hsup (hlen _ hmem)
      have hks : s + 1 ≤ k := by
        rcases Nat.lt_or_ge s k with h1 | h1
        · exact h1
        · have hk2 : k = s := by omega
          rw [hk2, hget] at hcol
          have hc2 : x.cols[s] = col := Option.some.inj hcol
          rw [hc2, hun] at hsup
          exact absurd hsup (by decide)
      obtain ⟨o, ty, len, hm, hrun⟩ := ih (s + 1)
        (if s ≠ x.cols.length - 1 then out ++ cellText fmt x.cols[s] i ++ [',']
          else out ++ cellText fmt x.cols[s] i)
        (by omega) ⟨k, col, hks, hcol, hun⟩
      refine ⟨o, ty, len, hm, ?_⟩
      rw [← hrun]
      show (match x.cols[s]? with
        | none => Result.outOfBounds out
        | some col =>
          (stream_csv_RObject fmt out col i).andThen fun output =>
            .ok (if s ≠ x.cols.length - 1 then output ++ [','] else output)).andThen _ = _
      rw [hget]
      simp only [hcell]
      rfl
    | false =>
      cases hc : x.cols[s] with
      | other ty len =>
        refine ⟨out, ty, len, by rw [← hc]; exact hmem, ?_⟩
        show (match x.cols[s]? with
          | none => Result.outOfBounds out
          | some col =>
            (stream_csv_RObject fmt out col i).andThen fun output =>
              .ok (if s ≠ x.cols.length - 1 then output ++ [','] else output)).andThen _ = _
        rw [hget]
        simp only [hc, stream_csv_RObject]
        rfl
      | LGLSXP v => rw [hc] at hsup; simp [supported] at hsup
      | INTSXP v => rw [hc] at hsup; simp [supported] at hsup
      | REALSXP v => rw [hc] at hsup; simp [supported] at hsup
      | STRSXP v => rw [hc] at hsup; simp [supported] at hsup

/-- A table with at least one row, columns of one length and an unsupported column
among them: the table encoder is left by `Rcpp::stop` in the first row. -/
theorem stream_csv_List_stop (fmt : Format) (out : Stream) (df : RList) (cn ap : Bool)
    (n : Nat) (hpos : 0 < n) (hcols : ∀ col ∈ df.cols, Rf_length col = n)
    (hn : cn = true → df.names.length = df.cols.length)
    (hun : ∃ col ∈ df.cols, supported col = false) :
    ∃ o ty len, RObject.other ty len ∈ df.cols ∧
      stream_csv_List fmt out df cn ap = .stop o (stopMessage ty) := by
  obtain ⟨ucol, humem, husup⟩ := hun
  have hp : df.cols ≠ [] := List.ne_nil_of_mem humem
  have hp0 : df.cols.length ≠ 0 := fun h => hp (List.length_eq_zero.mp h)
  obtain ⟨c, rest, hc⟩ := List.exists_cons_of_ne_nil hp
  have h0 : df.cols[0]? = some c := by rw [hc]; simp
  have hlen0 : Rf_length c = n := hcols c (by rw [hc]; exact List.mem_cons_self _ _)
  obtain ⟨k, hk⟩ := List.getElem?_of_mem humem
  have key : ∀ out1, ∃ o ty len, RObject.other ty len ∈ df.cols ∧
      stream_csv_List fmt out1 df false ap = .stop o (stopMessage ty) := by
    intro out1
    obtain ⟨o, ty, len, hm, hrun⟩ := row_loop_stop fmt df 0
      (fun col hcol => by rw [hcols col hcol]; exact hpos)
      df.cols.length 0 out1 (by omega) ⟨k, ucol, Nat.zero_le _, hk, husup⟩
    refine ⟨o, ty, len, hm, ?_⟩
    obtain ⟨m, hm1⟩ : ∃ m, n = m + 1 := ⟨n - 1, by omega⟩
    simp only [stream_csv_List, if_neg hp0, Bool.false_eq_true, if_false, h0]
    show forLoop _ (Rf_length c) 0 out1 = _
    rw [hlen0, hm1]
    show ((forLoop _ df.cols.length 0 out1).andThen _).andThen _ = _
    rw [hrun]
    rfl
  cases cn with
  | false => exact key out
  | true =>
    rw [stream_csv_List_header fmt out df ap hp (hn rfl)]
    exact key _

/-! ## The claims on the encoders -/

/-- C11: the text of a String cell determines its value.  For String values `v` and
`w` (missing, or a string without NUL byte) held by cells of character vectors, the
cell encoder writes texts `tv` and `tw` such that the decoder `decodeString` gives
`v` back from `tv`, equal texts come from equal values only, and `tv` is the unquoted
`NA` exactly when `v` is the missing value (so the text of the empty string and of
the string `NA` differ from it). -/
theorem string_cell_text_determines_value (fmt : Format)
    (xs ys : List (Option (List Char))) (i j : Nat) (v w : Option (List Char))
    (hv : xs[i]? = some v) (hw : ys[j]? = some w) (nv : nulFree v) (nw : nulFree w) :
    ∃ tv tw, stream_csv_RObject fmt [] (.STRSXP xs) i = .ok tv ∧
      stream_csv_RObject fmt [] (.STRSXP ys) j = .ok tw ∧
      decodeString tv = v ∧ (tv = tw → v = w) ∧ (tv = "NA".toList ↔ v = none) := by
  refine ⟨stringText v, stringText w, ?_, ?_, decodeString_stringText v, ?_,
    stringText_eq_NA v⟩
  · rw [stream_csv_RObject_string fmt [] xs i v hv, cellText_string fmt v nv]; rfl
  · rw [stream_csv_RObject_string fmt [] ys j w hw, cellText_string fmt w nw]; rfl
  · intro h
    rw [← decodeString_stringText v, ← decodeString_stringText w, h]

/-- Witness of C11: in the column (missing, empty string, `NA`) the missing value
is written `NA` and the string `NA` is written `"NA"`. -/
theorem string_cell_text_determines_value_witness :
    ([none, some "".toList, some "NA".toList] : List (Option (List Char)))[0]? = some none ∧
    ([none, some "".toList, some "NA".toList] : List (Option (List Char)))[2]? =
      some (some "NA".toList) ∧
    nulFree none ∧ nulFree (some "NA".toList) ∧
    ∃ tv tw,
      stream_csv_RObject sampleFormat []
        (.STRSXP [none, some "".toList, some "NA".toList]) 0 = .ok tv ∧
      stream_csv_RObject sampleFormat []
        (.STRSXP [none, some "".toList, some "NA".toList]) 2 = .ok tw ∧
      decodeString tv = none ∧ (tv = tw → none = some "NA".toList) ∧
      (tv = "NA".toList ↔ (none : Option (List Char)) = none) :=
  ⟨by decide, by decide, trivial, by show '\x00' ∉ "NA".toList; decide,
    string_cell_text_determines_value sampleFormat
      [none, some "".toList, some "NA".toList] [none, some "".toList, some "NA".toList]
      0 2 none (some "NA".toList) (by decide) (by decide) trivial
      (by show '\x00' ∉ "NA".toList; decide)⟩

/-- C12: a Double cell is written as `NA` if its value is the missing sentinel,
otherwise `NaN` if it is not-a-number, otherwise `Inf` if it is positive infinity,
otherwise `-Inf` if it is negative infinity, and otherwise, the value being finite,
as its decimal representation; a value that is not finite is written as one of the
four special texts. -/
theorem double_cell_text (fmt : Format) (out : Stream) (xs : List RDouble) (i : Nat)
    (value : RDouble) (h : xs[i]? = some value) :
    stream_csv_RObject fmt out (.REALSXP xs) i = .ok (out ++ doubleText fmt value) ∧
    (R_FINITE value = true → doubleText fmt value = fmt.showDouble value) ∧
    (R_FINITE value = false →
      doubleText fmt value ∈ ["NA".toList, "NaN".toList, "Inf".toList, "-Inf".toList]) := by
  cases value <;>
    simp [stream_csv_RObject, h, doubleText, R_FINITE, ISNA, ISNAN, RDouble.positive]

/-- Witness of C12: the cells of the column (NaN, +Inf, -Inf, NA, 1.5). -/
theorem double_cell_text_witness :
    ([.NaN, .posInf, .negInf, .NA, .finite 3 (-1)] : List RDouble)[3]? = some .NA ∧
    (stream_csv_RObject sampleFormat []
        (.REALSXP [.NaN, .posInf, .negInf, .NA, .finite 3 (-1)]) 3 =
      .ok ([] ++ doubleText sampleFormat .NA) ∧
    (R_FINITE .NA = true → doubleText sampleFormat .NA = sampleFormat.showDouble .NA) ∧
    (R_FINITE .NA = false →
      doubleText sampleFormat .NA ∈
        ["NA".toList, "NaN".toList, "Inf".toList, "-Inf".toList])) :=
  ⟨by decide, double_cell_text sampleFormat []
    [.NaN, .posInf, .negInf, .NA, .finite 3 (-1)] 3 .NA (by decide)⟩

/-- C13 as stated fails: a double column holding NaN, +Inf, -Inf, NA and 1.5 is a
table of five rows, so its encoding without header is not the single row
`NaN,Inf,-Inf,NA,1.5`. -/
theorem double_column_single_row_counterexample :
    ¬ (stream_csv_List sampleFormat []
        ⟨[.REALSXP [.NaN, .posInf, .negInf, .NA, .finite 3 (-1)]], [some "x".toList], 5⟩
        false false = .ok "NaN,Inf,-Inf,NA,1.5\n".toList) := by
  decide

/-- C13, amended: with a formatter that writes 1.5 as `1.5`, encoding without header
a double column holding NaN, +Inf, -Inf, NA and 1.5 yields the cell texts `NaN`,
`Inf`, `-Inf`, `NA` and `1.5` one per row, each followed by a record terminator; the
text `NaN,Inf,-Inf,NA,1.5` followed by one record terminator is the encoding of the
single row of five double columns holding these values. -/
theorem double_specials_rows (fmt : Format) (names : List (Option (List Char)))
    (row_names : Nat) (ap : Bool)
    (hfmt : fmt.showDouble (.finite 3 (-1)) = "1.5".toList) :
    stream_csv_List fmt []
        ⟨[.REALSXP [.NaN, .posInf, .negInf, .NA, .finite 3 (-1)]], names, row_names⟩
        false ap = .ok "NaN\nInf\n-Inf\nNA\n1.5\n".toList ∧
    stream_csv_List fmt []
        ⟨[.REALSXP [.NaN], .REALSXP [.posInf], .REALSXP [.negInf], .REALSXP [.NA],
          .REALSXP [.finite 3 (-1)]], names, row_names⟩
        false ap = .ok "NaN,Inf,-Inf,NA,1.5\n".toList := by
  constructor <;>
    simp [stream_csv_List, stream_csv_row, forLoop, stream_csv_RObject, Result.andThen,
      Rf_length, R_FINITE, ISNA, ISNAN, RDouble.positive, hfmt]

/-- Witness of C13, amended, with the formatter of the examples. -/
theorem double_specials_rows_witness :
    sampleFormat.showDouble (.finite 3 (-1)) = "1.5".toList ∧
    (stream_csv_List sampleFormat []
        ⟨[.REALSXP [.NaN, .posInf, .negInf, .NA, .finite 3 (-1)]], [some "x".toList], 5⟩
        false false = .ok "NaN\nInf\n-Inf\nNA\n1.5\n".toList ∧
    stream_csv_List sampleFormat []
        ⟨[.REALSXP [.NaN], .REALSXP [.posInf], .REALSXP [.negInf], .REALSXP [.NA],
          .REALSXP [.finite 3 (-1)]], [some "x".toList], 5⟩
        false false = .ok "NaN,Inf,-Inf,NA,1.5\n".toList) :=
  ⟨by decide, double_specials_rows sampleFormat [some "x".toList] 5 false (by decide)⟩

/-- C14 as stated fails for a missing name: the header of a table whose only column
has the missing value for name is the unquoted `NA`, not a name in double quotes. -/
theorem header_missing_name_counterexample :
    ¬ ∃ (s rest : List Char),
      (stream_csv_List sampleFormat [] ⟨[.INTSXP [1]], [none], 1⟩ true false).output =
        ['"'] ++ doubleQuotes s ++ ['"'] ++ ['\n'] ++ rest := by
  rintro ⟨s, rest, h⟩
  have hv : (stream_csv_List sampleFormat [] ⟨[.INTSXP [1]], [none], 1⟩ true false).output =
      "NA\n1\n".toList := by decide
  rw [hv] at h
  have h2 := congrArg List.head? h
  simp at h2

/-- C14, amended: for every table with at least one column, as many names as columns
and header emission enabled, the output begins with a header row made of every column
name in column order, each name that is not missing wrapped in double quotes with its
double quotes doubled and a missing name written as the unquoted `NA`, the names
separated by `,` and the row terminated by `\n`. -/
theorem header_row_first (fmt : Format) (out : Stream) (df : RList) (ap : Bool)
    (hp : df.cols ≠ []) (hn : df.names.length = df.cols.length)
    (hnul : ∀ v ∈ df.names, nulFree v) :
    ∃ rest, (stream_csv_List fmt out df true ap).output =
      out ++ joinComma (df.names.map stringText) ++ ['\n'] ++ rest := by
  have hmap : df.names.map (fun v => cellText fmt (.STRSXP [v]) 0) =
      df.names.map stringText :=
    List.map_congr_left (fun v hv => cellText_string fmt v (hnul v hv))
  refine ⟨(stream_csv_List fmt [] df false ap).output, ?_⟩
  rw [stream_csv_List_header fmt out df ap hp hn,
    stream_csv_List_eq fmt (out ++ headerText fmt df.names) df false ap,
    prepend_output, headerText, hmap]
  simp

/-- Witness of C14, amended: the header of the columns named `x`, missing and
`say "z"`. -/
theorem header_row_first_witness :
    (⟨[.INTSXP [1], .LGLSXP [1], .STRSXP [none]],
        [some "x".toList, none, some "say \"z\"".toList], 1⟩ : RList).cols ≠ [] ∧
    (⟨[.INTSXP [1], .LGLSXP [1], .STRSXP [none]],
        [some "x".toList, none, some "say \"z\"".toList], 1⟩ : RList).names.length =
      (⟨[.INTSXP [1], .LGLSXP [1], .STRSXP [none]],
        [some "x".toList, none, some "say \"z\"".toList], 1⟩ : RList).cols.length ∧
    (∀ v ∈ (⟨[.INTSXP [1], .LGLSXP [1], .STRSXP [none]],
        [some "x".toList, none, some "say \"z\"".toList], 1⟩ : RList).names, nulFree v) ∧
    ∃ rest, (stream_csv_List sampleFormat []
        ⟨[.INTSXP [1], .LGLSXP [1], .STRSXP [none]],
          [some "x".toList, none, some "say \"z\"".toList], 1⟩ true false).output =
      [] ++ joinComma ((⟨[.INTSXP [1], .LGLSXP [1], .STRSXP [none]],
        [some "x".toList, none, some "say \"z\"".toList], 1⟩ : RList).names.map stringText) ++
        ['\n'] ++ rest :=
  have hnul : ∀ v ∈ (⟨[.INTSXP [1], .LGLSXP [1], .STRSXP [none]],
      [some "x".toList, none, some "say \"z\"".toList], 1⟩ : RList).names, nulFree v := by
    intro v hv
    simp only [List.mem_cons, List.mem_singleton, List.not_mem_nil, or_false] at hv
    rcases hv with h | h | h <;> subst h
    · show '\x00' ∉ "x".toList; decide
    · trivial
    · show '\x00' ∉ "say \"z\"".toList; decide
  ⟨by decide, by decide, hnul,
    header_row_first sampleFormat [] _ false (by decide) (by decide) hnul⟩

/-- C15: for every table of at least one column, all columns of supported kinds and
of one length `n` (and as many names as columns when the header is asked for), the
table encoder writes the header row if asked for, then for `i = 0 .. n-1` in
increasing order the cells of row `i` in column order joined with `,` and terminated
by `\n`, and nothing else. -/
theorem table_text (fmt : Format) (out : Stream) (df : RList) (cn ap : Bool) (n : Nat)
    (hp : df.cols ≠ [])
    (hcols : ∀ col ∈ df.cols, supported col = true ∧ Rf_length col = n)
    (hn : cn = true → df.names.length = df.cols.length) :
    stream_csv_List fmt out df cn ap =
      .ok (out ++ (if cn = true then headerText fmt df.names else []) ++
        (List.range n).flatMap (fun i =>
          joinComma (df.cols.map (fun col => cellText fmt col i)) ++ ['\n'])) :=
  stream_csv_List_ok fmt out df cn ap n hp hcols hn

/-- Witness of C15: a table of an integer, a character and a logical column with
two rows, with its header. -/
theorem table_text_witness :
    (⟨[.INTSXP [1, NA_INTEGER], .STRSXP [some "a\"b".toList, none], .LGLSXP [1, 0]],
        [some "x".toList, some "y".toList, some "z".toList], 2⟩ : RList).cols ≠ [] ∧
    (∀ col ∈ (⟨[.INTSXP [1, NA_INTEGER], .STRSXP [some "a\"b".toList, none], .LGLSXP [1, 0]],
        [some "x".toList, some "y".toList, some "z".toList], 2⟩ : RList).cols,
      supported col = true ∧ Rf_length col = 2) ∧
    stream_csv_List sampleFormat []
        ⟨[.INTSXP [1, NA_INTEGER], .STRSXP [some "a\"b".toList, none], .LGLSXP [1, 0]],
          [some "x".toList, some "y".toList, some "z".toList], 2⟩ true false =
      .ok "\"x\",\"y\",\"z\"\n1,\"a\"\"b\",TRUE\nNA,NA,FALSE\n".toList := by
  refine ⟨by decide, by decide, ?_⟩
  rw [table_text sampleFormat [] _ true false 2 (by decide) (by decide) (by decide)]
  decide

/-- C16: for every table with zero columns, every declared row count, every names
attribute and every value of the `col_names` and `append` flags, the table encoder
writes nothing and the in-memory result is the empty string, no file being
touched. -/
theorem zero_columns_empty (fmt : Format) (fs : Files) (out : Stream)
    (names : List (Option (List Char))) (row_names : Nat) (cn ap : Bool) :
    stream_csv_List fmt out ⟨[], names, row_names⟩ cn ap = .ok out ∧
    stream_csv fmt fs ⟨[], names, row_names⟩ [] cn ap = (.value [], fs) := by
  constructor
  · simp [stream_csv_List]
  · simp [stream_csv, stream_csv_List]

/-- C17 as stated fails: a string cell passes an embedded newline through, so the
one-row table whose cell is a string with a newline in it is encoded, without
header, with two `\n` and not one. -/
theorem embedded_newline_counterexample :
    stream_csv_List sampleFormat []
        ⟨[.STRSXP [some "a\nb".toList]], [some "x".toList], 1⟩ false false =
      .ok "\"a\nb\"\n".toList ∧
    "\"a\nb\"\n".toList.count '\n' ≠ 1 := by
  decide

/-- C17, amended: for every table of at least one column, all columns of supported
kinds and of one length `n`, in which no cell text holds a `\n`, encoding with
`col_names = false` produces a text with exactly `n` line terminators `\n`. -/
theorem rows_newline_count (fmt : Format) (df : RList) (ap : Bool) (n : Nat)
    (hp : df.cols ≠ [])
    (hcols : ∀ col ∈ df.cols, supported col = true ∧ Rf_length col = n)
    (hcells : ∀ col ∈ df.cols, ∀ i, i < n → '\n' ∉ cellText fmt col i) :
    ∃ txt, stream_csv_List fmt [] df false ap = .ok txt ∧ txt.count '\n' = n := by
  refine ⟨_, stream_csv_List_rows fmt [] df ap n hp hcols, ?_⟩
  rw [List.nil_append]
  apply count_newline_rows
  intro i hi
  have h1 : '\n' ∉ joinComma (df.cols.map (fun col => cellText fmt col i)) := by
    apply not_mem_joinComma
    intro t ht
    obtain ⟨col, hcol, rfl⟩ := List.mem_map.mp ht
    exact hcells col hcol i hi
  simp [rowText, List.count_append, List.count_eq_zero_of_not_mem h1]

/-- Witness of C17, amended: a table of two rows. -/
theorem rows_newline_count_witness :
    (⟨[.INTSXP [1, 2], .STRSXP [some "a".toList, none]],
        [some "x".toList, some "y".toList], 2⟩ : RList).cols ≠ [] ∧
    (∀ col ∈ (⟨[.INTSXP [1, 2], .STRSXP [some "a".toList, none]],
        [some "x".toList, some "y".toList], 2⟩ : RList).cols,
      supported col = true ∧ Rf_length col = 2) ∧
    (∀ col ∈ (⟨[.INTSXP [1, 2], .STRSXP [some "a".toList, none]],
        [some "x".toList, some "y".toList], 2⟩ : RList).cols,
      ∀ i, i < 2 → '\n' ∉ cellText sampleFormat col i) ∧
    ∃ txt, stream_csv_List sampleFormat []
        ⟨[.INTSXP [1, 2], .STRSXP [some "a".toList, none]],
          [some "x".toList, some "y".toList], 2⟩ false false = .ok txt ∧
      txt.count '\n' = 2 :=
  ⟨by decide, by decide, by decide,
    rows_newline_count sampleFormat _ false 2 (by decide) (by decide) (by decide)⟩

/-- C18 as stated fails for a table without rows: its cells are never reached, so a
column of an unsupported kind raises no error and the call returns a value. -/
theorem unsupported_column_no_rows_counterexample :
    (stream_csv sampleFormat ⟨fun _ => [], fun _ => true⟩
        ⟨[.other "complex".toList 0], [some "z".toList], 0⟩ [] true false).1 =
      .value "\"z\"\n".toList := by
  decide

/-- C18, amended: for every table with at least one row (columns of one length
`n ≥ 1`, as many names as columns when the header is asked for) that contains a
column whose kind is not Logical, Integer, Double or String, the encode operation is
left by the error of `Rcpp::stop` whose message names the type of such a column, in
both sink modes, and the call yields no result value. -/
theorem unsupported_column_stops (fmt : Format) (fs : Files) (df : RList)
    (path : List Char) (cn ap : Bool) (n : Nat) (hpos : 0 < n)
    (hcols : ∀ col ∈ df.cols, Rf_length col = n)
    (hn : cn = true → df.names.length = df.cols.length)
    (hun : ∃ col ∈ df.cols, supported col = false) :
    ∃ ty len, RObject.other ty len ∈ df.cols ∧
      (stream_csv fmt fs df path cn ap).1 = .error (stopMessage ty) := by
  by_cases hpath : path = []
  · obtain ⟨o, ty, len, hm, hrun⟩ := stream_csv_List_stop fmt [] df cn ap n hpos hcols hn hun
    exact ⟨ty, len, hm, by simp [stream_csv, hpath, hrun]⟩
  · by_cases hopen : fs.opens path = true
    · obtain ⟨o, ty, len, hm, hrun⟩ := stream_csv_List_stop fmt
        (if ap = true then fs.content path else []) df cn ap n hpos hcols hn hun
      exact ⟨ty, len, hm, by simp [stream_csv, hpath, hopen, hrun]⟩
    · obtain ⟨o, ty, len, hm, hrun⟩ :=
        stream_csv_List_stop fmt [] df cn ap n hpos hcols hn hun
      exact ⟨ty, len, hm, by simp [stream_csv, hpath, hopen, hrun]⟩

/-- Witness of C18, amended: a one-row table whose second column is of type
`complex`. -/
theorem unsupported_column_stops_witness :
    (0 : Nat) < 1 ∧
    (∀ col ∈ (⟨[.INTSXP [1], .other "complex".toList 1],
        [some "x".toList, some "z".toList], 1⟩ : RList).cols, Rf_length col = 1) ∧
    (∃ col ∈ (⟨[.INTSXP [1], .other "complex".toList 1],
        [some "x".toList, some "z".toList], 1⟩ : RList).cols, supported col = false) ∧
    ∃ ty len, RObject.other ty len ∈ (⟨[.INTSXP [1], .other "complex".toList 1],
        [some "x".toList, some "z".toList], 1⟩ : RList).cols ∧
      (stream_csv sampleFormat ⟨fun _ => [], fun _ => true⟩
        ⟨[.INTSXP [1], .other "complex".toList 1], [some "x".toList, some "z".toList], 1⟩
        [] true false).1 = .error (stopMessage ty) :=
  ⟨by decide, by decide, by decide,
    unsupported_column_stops sampleFormat ⟨fun _ => [], fun _ => true⟩ _ [] true false 1
      (by decide)
      (by decide) (by decide) (by decide)⟩

/-- C20: for every buffer, `nextToken()` never changes the line counter set to 0 by
`tokenize()`: after any number of calls the counter is 0, every token returned,
FIELD or EOF, carries line number 0, the guard `(line_ + 1) % 100000 == 0` of the
scan loop is false, and no call has polled the interrupt check. -/
theorem line_counter_stays_zero (src : Source) (check : Nat → Bool) (t : TokenizerLine)
    (b e p n : Nat) (h : b ≤ e) :
    ∃ toks t1, nextTokens src check n (t.tokenize b e) p = some (toks, t1, p) ∧
      t1.line_ = 0 ∧ (∀ k ∈ toks, k.line = 0) ∧
      decide ((t1.line_ + 1).tmod 100000 = 0) = false := by
  obtain ⟨sp, _, hrun⟩ := tokenize_run src check t b e p h
  obtain ⟨t1, hn, _, _, hl, _⟩ := hrun n
  refine ⟨expected sp n, t1, hn, hl, ?_, ?_⟩
  · intro k hk
    rcases expected_mem sp n k hk with h1 | ⟨r, _, h1⟩
    · rw [h1]; rfl
    · rw [h1]; rfl
  · rw [hl]; decide

/-- Witness of C20 on the buffer `a\nb\n` with an interrupt check that always
signals. -/
theorem line_counter_stays_zero_witness :
    (0 : Nat) ≤ 4 ∧
    ∃ toks t1, nextTokens (sourceAt 0 "a\nb\n".toList) (fun _ => true) 3
        (TokenizerLine.tokenize ⟨0, 0, 0, false, 7⟩ 0 4) 0 = some (toks, t1, 0) ∧
      t1.line_ = 0 ∧ (∀ k ∈ toks, k.line = 0) ∧
      decide ((t1.line_ + 1).tmod 100000 = 0) = false :=
  ⟨by decide, line_counter_stays_zero (sourceAt 0 "a\nb\n".toList) (fun _ => true)
    ⟨0, 0, 0, false, 7⟩ 0 4 0 3 (by decide)⟩

end Readr
